import Mathlib

/-!
# Verification of the file-manager replicated metadata store

Shallow embedding of the repository's core: the record model
(`src/storage/models.rs`), the metadata repository over three redb tables
(`src/storage/files.rs`), and the replicated state machine
(`src/state_machine.rs`).

Modelling conventions:
* A redb table (`TableDefinition<&str, V>`, a BTree keyed by `&str`) is
  embedded as an association list sorted by key, with `alget` / `alinsert` /
  `alremove` mirroring `get` / `insert` / `remove`.  Iteration
  (`table.iter()`) is the list itself, in ascending key order, matching the
  BTree's iteration order.
* msgpack (de)serialization is the identity: records are stored directly.
  `unwrap_or_default()` on a missing subject-index entry becomes `Option.getD []`.
* `chrono::DateTime<Utc>` is embedded as `Int`; the ambient clock read
  `chrono::Utc::now()` inside `update_file` becomes an explicit `now`
  argument threaded from the caller.
* `serde_json::Value` payloads of the `metadata` map are never inspected by
  the code, so they are embedded as an opaque decidable type (`String`).
* All storage fallibility is I/O-level (`DatabaseError`); the logic itself is
  total, so operations are pure functions and `Result<T, _>` becomes `T`.
-/

abbrev Timestamp := Int

abbrev JsonValue := String

/-- Embeds `HashMap<String, serde_json::Value>` (the `metadata` payload). -/
abbrev Metadata := List (String × JsonValue)

/-- `Patch<T>` from `src/storage/models.rs`: three-state patch value for
partial updates. -/
inductive Patch (T : Type) where
  | Absent : Patch T
  | Null : Patch T
  | Value : T → Patch T
deriving DecidableEq, Repr

/-- `impl From<Option<Option<T>>> for Patch<T>` in `src/storage/models.rs`. -/
def Patch.fromOpt {T : Type} (v : Option (Option T)) : Patch T :=
  match v with
  | none => Patch.Absent
  | some none => Patch.Null
  | some (some v) => Patch.Value v

/-- `Patch::as_option` in `src/storage/models.rs` (the borrow in
`Option<Option<&T>>` is dropped by the embedding). -/
def Patch.as_option {T : Type} (p : Patch T) : Option (Option T) :=
  match p with
  | Patch.Absent => none
  | Patch.Null => some none
  | Patch.Value v => some (some v)

/-- `FileType` from `src/storage/models.rs`. -/
inductive FileType where
  | Audio : FileType
  | Binary : FileType
  | Document : FileType
  | Image : FileType
  | Video : FileType
deriving DecidableEq, Repr

/-- The nine `application/...` subtypes classified as documents in
`FileType::from_mime`. -/
def docSubtypes : List String :=
  ["pdf", "msword", "rtf", "csv",
   "vnd.openxmlformats-officedocument.wordprocessingml.document",
   "vnd.openxmlformats-officedocument.spreadsheetml.sheet",
   "vnd.openxmlformats-officedocument.presentationml.presentation",
   "vnd.ms-excel", "vnd.ms-powerpoint"]

/-- Splitting a character list at a separator, with Rust's `str::split`
semantics: the empty string yields one empty piece, and a trailing separator
yields a trailing empty piece. -/
def splitChars (sep : Char) : List Char → List (List Char)
  | [] => [[]]
  | c :: cs =>
    let rest := splitChars sep cs
    if c = sep then [] :: rest
    else
      match rest with
      | r :: rs => (c :: r) :: rs
      | [] => [[c]]

/-- `mime_type.split('/')` as a list of strings. -/
def mimeSplit (mime_type : String) : List String :=
  (splitChars '/' mime_type.data).map (fun cs => String.mk cs)

/-- `mime_type.split('/').next().unwrap_or("")`: the primary MIME type. -/
def mimePrimary (mime_type : String) : String :=
  (mimeSplit mime_type).headD ""

/-- `mime_type.split('/').nth(1).unwrap_or("")`: the MIME subtype. -/
def mimeSub (mime_type : String) : String :=
  ((mimeSplit mime_type).drop 1).headD ""

/-- `FileType::from_mime` from `src/storage/models.rs`. -/
def FileType.from_mime (mime_type : String) : FileType :=
  let primary := mimePrimary mime_type
  if primary = "audio" then FileType.Audio
  else if primary = "image" then FileType.Image
  else if primary = "video" then FileType.Video
  else if primary = "text" ∨ primary = "application" then
    let sub := mimeSub mime_type
    if sub ∈ docSubtypes then FileType.Document
    else if primary = "text" then FileType.Document
    else FileType.Binary
  else FileType.Binary

/-- `FileRecord` from `src/storage/models.rs`. -/
structure FileRecord where
  id : String
  mime_type : String
  file_type : FileType
  byte_size : Nat
  permalink : String
  created_at : Timestamp
  updated_at : Timestamp
  alt : Option String
  description : Option String
  metadata : Option Metadata
  name : Option String
  subject_id : Option String
deriving DecidableEq, Repr

/-- `WriteOp` from `src/storage/models.rs`: the unit of replication. -/
inductive WriteOp where
  | CreateFile : FileRecord → WriteOp
  | DeleteFile : String → WriteOp
  | UpdateFile : String → Patch String → Patch String → Patch Metadata →
      Patch String → Option String → Patch String → WriteOp
deriving DecidableEq, Repr

/-- Lexicographic code-point comparison on character lists; `strLt` below
mirrors redb's byte-wise ordering of `&str` keys (identical on ASCII keys).
It is executable by the kernel, unlike core's `String.ltb`. -/
def charListLt : List Char → List Char → Bool
  | [], [] => false
  | [], _ :: _ => true
  | _ :: _, [] => false
  | c :: cs, d :: ds =>
    if c.toNat < d.toNat then true
    else if d.toNat < c.toNat then false
    else charListLt cs ds

/-- The key order of the embedded tables (only iteration order depends on it). -/
def strLt (a b : String) : Bool :=
  charListLt a.data b.data

/-- `table.get(k)` on a redb table embedded as an association list. -/
def alget {V : Type} (k : String) : List (String × V) → Option V
  | [] => none
  | (k', v) :: rest => if k = k' then some v else alget k rest

/-- `table.insert(k, v)`: insert or replace, keeping the list sorted by key
(redb tables are BTrees ordered by `&str` key). -/
def alinsert {V : Type} (k : String) (v : V) : List (String × V) → List (String × V)
  | [] => [(k, v)]
  | (k', v') :: rest =>
    if strLt k k' then (k, v) :: (k', v') :: rest
    else if k = k' then (k, v) :: rest
    else (k', v') :: alinsert k v rest

/-- `table.remove(k)`. -/
def alremove {V : Type} (k : String) (m : List (String × V)) : List (String × V) :=
  m.filter (fun kv => kv.1 ≠ k)

/-- The three tables of `src/storage/tables.rs`: `FILES` (id → record),
`FILE_PERMALINKS` (permalink → id), `SUBJECT_FILES` (subject id → id list). -/
structure DB where
  files : List (String × FileRecord)
  permalinks : List (String × String)
  subjects : List (String × List String)
deriving DecidableEq, Repr

def emptyDB : DB := ⟨[], [], []⟩

/-- The subject-index insertion logic inlined identically at
`src/storage/files.rs` lines 31-44 (`put_file`) and lines 248-262
(`update_file`): read the subject's id list (defaulting to empty), and append
`id` only if not already present. -/
def subject_add_id (subjects : List (String × List String)) (sid : String)
    (id : String) : List (String × List String) :=
  let file_ids := (alget sid subjects).getD []
  if id ∈ file_ids then subjects
  else alinsert sid (file_ids ++ [id]) subjects

/-- The subject-index removal logic inlined identically at
`src/storage/files.rs` lines 139-159 (`delete_file`) and lines 226-246
(`update_file`): drop `id` from the subject's id list, removing the key when
the list becomes empty; a missing key is left untouched. -/
def subject_remove_id (subjects : List (String × List String)) (sid : String)
    (id : String) : List (String × List String) :=
  match alget sid subjects with
  | none => subjects
  | some ids =>
    let ids' := ids.filter (fun fid => fid ≠ id)
    if ids' = [] then alremove sid subjects
    else alinsert sid ids' subjects

/-- `Database::put_file` (`src/storage/files.rs` lines 15-48): store the
record by id, upsert the permalink-index entry, and add the id to the
subject index when `subject_id` is present. -/
def put_file (db : DB) (file : FileRecord) : DB :=
  let files := alinsert file.id file db.files
  let permalinks := alinsert file.permalink file.id db.permalinks
  let subjects :=
    match file.subject_id with
    | some sid => subject_add_id db.subjects sid file.id
    | none => db.subjects
  ⟨files, permalinks, subjects⟩

/-- `Database::get_file` (`src/storage/files.rs` lines 51-62). -/
def get_file (db : DB) (id : String) : Option FileRecord :=
  alget id db.files

/-- `Database::get_file_by_permalink` (`src/storage/files.rs` lines 65-85). -/
def get_file_by_permalink (db : DB) (permalink : String) : Option FileRecord :=
  match alget permalink db.permalinks with
  | none => none
  | some id => alget id db.files

/-- `Database::get_files_by_subject` (`src/storage/files.rs` lines 88-107):
resolve the subject's id list and load each record, silently skipping ids
with no record. -/
def get_files_by_subject (db : DB) (subject_id : String) : List FileRecord :=
  match alget subject_id db.subjects with
  | none => []
  | some file_ids => file_ids.filterMap (fun i => alget i db.files)

/-- `Database::delete_file` (`src/storage/files.rs` lines 110-167): read the
record for index cleanup; if absent return `false` with no change, else
remove it from all three tables. -/
def delete_file (db : DB) (id : String) : DB × Bool :=
  match alget id db.files with
  | none => (db, false)
  | some file =>
    let files := alremove id db.files
    let permalinks := alremove file.permalink db.permalinks
    let subjects :=
      match file.subject_id with
      | some sid => subject_remove_id db.subjects sid id
      | none => db.subjects
    (⟨files, permalinks, subjects⟩, true)

/-- `Database::update_file` (`src/storage/files.rs` lines 171-277).  The
`now` argument embeds the ambient clock read `chrono::Utc::now()` at line
265.  Field patches arrive in the `Option<Option<_>>` form produced by
`Patch::as_option` on the apply path. -/
def update_file (db : DB) (id : String)
    (alt : Option (Option String)) (description : Option (Option String))
    (metadata : Option (Option Metadata)) (name : Option (Option String))
    (permalink : Option String) (subject_id : Option (Option String))
    (now : Timestamp) : DB × Bool :=
  match alget id db.files with
  | none => (db, false)
  | some file0 =>
    let f1 := match alt with
      | some a => { file0 with alt := a }
      | none => file0
    let f2 := match description with
      | some d => { f1 with description := d }
      | none => f1
    let f3 := match metadata with
      | some m => { f2 with metadata := m }
      | none => f2
    let f4 := match name with
      | some n => { f3 with name := n }
      | none => f3
    let pf : List (String × String) × FileRecord :=
      match permalink with
      | some newp =>
        (alinsert newp id (alremove f4.permalink db.permalinks),
         { f4 with permalink := newp })
      | none => (db.permalinks, f4)
    let permalinks := pf.1
    let f5 := pf.2
    let sf : List (String × List String) × FileRecord :=
      match subject_id with
      | some new_subject =>
        let removed := match f5.subject_id with
          | some old_sid => subject_remove_id db.subjects old_sid id
          | none => db.subjects
        let f6 := { f5 with subject_id := new_subject }
        let added := match new_subject with
          | some new_sid => subject_add_id removed new_sid id
          | none => removed
        (added, f6)
      | none => (db.subjects, f5)
    let subjects := sf.1
    let f7 := { sf.2 with updated_at := now }
    (⟨alinsert id f7 db.files, permalinks, subjects⟩, true)

/-- `Database::get_all_files` (`src/storage/files.rs` lines 280-292): scan
the `FILES` table in key order. -/
def get_all_files (db : DB) : List FileRecord :=
  db.files.map (fun kv => kv.2)

/-- `Database::permalink_exists` (`src/storage/files.rs` lines 323-327). -/
def permalink_exists (db : DB) (permalink : String) : Bool :=
  (alget permalink db.permalinks).isSome

/-- `FileStateMachine::apply` (`src/state_machine.rs` lines 29-58).  The
`now` argument is the clock the node reads when executing an `UpdateFile`
(see `update_file`). -/
def FileStateMachine.apply (db : DB) (op : WriteOp) (now : Timestamp) : DB :=
  match op with
  | WriteOp.CreateFile file => put_file db file
  | WriteOp.DeleteFile id => (delete_file db id).1
  | WriteOp.UpdateFile id alt description metadata name permalink subject_id =>
    (update_file db id alt.as_option description.as_option metadata.as_option
      name.as_option permalink subject_id.as_option now).1

/-- `FileStateMachine::snapshot` (`src/state_machine.rs` lines 60-63):
the `files` field of a `FileSnapshot`. -/
def FileStateMachine.snapshot (db : DB) : List FileRecord :=
  get_all_files db

/-- `FileStateMachine::restore` (`src/state_machine.rs` lines 65-73):
re-insert every snapshot record via `put_file`. -/
def FileStateMachine.restore (db : DB) (files : List FileRecord) : DB :=
  files.foldl put_file db

/-- A repository-level mutating operation, for quantifying over operation
sequences (`put_file` / `update_file` / `delete_file`); `upd` carries the
clock value the node would read during that update. -/
inductive Op where
  | put : FileRecord → Op
  | del : String → Op
  | upd : String → Option (Option String) → Option (Option String) →
      Option (Option Metadata) → Option (Option String) → Option String →
      Option (Option String) → Timestamp → Op
deriving DecidableEq, Repr

/-- Execute one repository operation, discarding the boolean result. -/
def step (db : DB) : Op → DB
  | Op.put f => put_file db f
  | Op.del id => (delete_file db id).1
  | Op.upd id alt description metadata name permalink subject_id now =>
    (update_file db id alt description metadata name permalink subject_id now).1

/-- Run an operation sequence from the empty store. -/
def run (ops : List Op) : DB :=
  ops.foldl step emptyDB

/-- `stepsOk ok db ops`: every operation of `ops` satisfies the side
condition `ok` against the state it executes in. -/
def stepsOk (ok : DB → Op → Bool) : DB → List Op → Bool
  | _, [] => true
  | db, op :: ops => ok db op && stepsOk ok (step db op) ops

/-- The PermalinkIndex invariant claimed by the spec: the permalink table
holds exactly one entry per live record, mapping that record's current
permalink to its id, and nothing else. -/
def permalinkInv (db : DB) : Prop :=
  ∀ p i, alget p db.permalinks = some i ↔
    ∃ r, alget i db.files = some r ∧ r.permalink = p

/-- The SubjectIndex property claimed by the spec: every id list stored in
the subject table is nonempty, duplicate-free, and equal (as a set) to the
set of live record ids whose `subject_id` is that key. -/
def subjectClaim (db : DB) : Prop :=
  ∀ s ids, alget s db.subjects = some ids →
    ids ≠ [] ∧ ids.Nodup ∧
      ∀ i, i ∈ ids ↔ ∃ r, alget i db.files = some r ∧ r.subject_id = some s

/-- Completeness of the subject index: every live record with a subject is
listed under that subject's key. -/
def subjectComplete (db : DB) : Prop :=
  ∀ i r, alget i db.files = some r → ∀ s, r.subject_id = some s →
    ∃ ids, alget s db.subjects = some ids ∧ i ∈ ids

/-- Well-formedness of the primary table: keys strictly sorted (as redb
keeps them) and every stored record's `id` equal to its key. -/
def storeWF (db : DB) : Prop :=
  List.Pairwise (fun a b => strLt a.1 b.1 = true) db.files ∧
  ∀ e ∈ db.files, e.2.id = e.1

/-- `liveOf files i s`: the live record stored under id `i` has subject `s`. -/
def liveOf (files : List (String × FileRecord)) (i s : String) : Prop :=
  ∃ r, alget i files = some r ∧ r.subject_id = some s

/-- A subject table is exact for a live-subject predicate: every stored list
is nonempty, duplicate-free and holds exactly the live ids of its key, and
every live (id, subject) pair is listed. -/
def subjTableOk (subjects : List (String × List String))
    (live : String → String → Prop) : Prop :=
  (∀ s ids, alget s subjects = some ids →
    ids ≠ [] ∧ ids.Nodup ∧ ∀ i, i ∈ ids ↔ live i s) ∧
  ∀ i s, live i s → ∃ ids, alget s subjects = some ids ∧ i ∈ ids

/-- The full subject-index invariant of a store. -/
def subjectInvFull (db : DB) : Prop :=
  subjTableOk db.subjects (liveOf db.files)

/-- Permalink-collision freedom of an operation against the current state:
a `put` either overwrites a record keeping its permalink, or inserts a fresh
id under an unused permalink; an `update` of a live record may only supply a
permalink that is unused or the record's own.  (`§4.3`: the caller
pre-checks permalink uniqueness; the repository does not.) -/
def permaOk (db : DB) : Op → Bool
  | Op.put f =>
    match alget f.id db.files with
    | some old => decide (old.permalink = f.permalink)
    | none => (alget f.permalink db.permalinks).isNone
  | Op.del _ => true
  | Op.upd id _ _ _ _ permalink _ _ =>
    match alget id db.files with
    | none => true
    | some _ =>
      match permalink with
      | some p =>
        match alget p db.permalinks with
        | some j => decide (j = id)
        | none => true
      | none => true

/-- Subject-index safety of an operation: a `put` may not overwrite a live
record that carries a subject with a different `subject_id` (the repository
leaves the old subject's entry behind in that case).  Overwriting a
subject-less record is always safe — there is no old entry to clean up. -/
def subjOk (db : DB) : Op → Bool
  | Op.put f =>
    match alget f.id db.files with
    | some old =>
      match old.subject_id with
      | some _ => decide (old.subject_id = f.subject_id)
      | none => true
    | none => true
  | Op.del _ => true
  | Op.upd _ _ _ _ _ _ _ _ => true

/-- Both side conditions at once: the collision-freedom the caller is
responsible for on every mutating path. -/
def goodOp (db : DB) (op : Op) : Bool :=
  permaOk db op && subjOk db op

/-- The effect the spec assigns to one `Patch` applied to one optional
field: `Absent` keeps the stored value, `Null` clears it, `Value v` sets it. -/
def applyPatch {T : Type} : Patch T → Option T → Option T
  | Patch.Absent, old => old
  | Patch.Null, _ => none
  | Patch.Value v, _ => some v

/-- The subject table that `update_file` leaves behind, as a function of the
old record's subject and the subject patch (proof helper;
`update_file_subjects` below shows it describes the code). -/
def updatedSubjects (subjects : List (String × List String))
    (oldSubj : Option String) (subject_id : Option (Option String))
    (id : String) : List (String × List String) :=
  match subject_id with
  | none => subjects
  | some new_subject =>
    let removed := match oldSubj with
      | some old_sid => subject_remove_id subjects old_sid id
      | none => subjects
    match new_subject with
    | some ns => subject_add_id removed ns id
    | none => removed

/-- The record that `update_file` writes back, field by field (proof helper;
`update_file_files` below shows it describes the code). -/
def updatedRecord (r : FileRecord) (alt description : Option (Option String))
    (metadata : Option (Option Metadata)) (name : Option (Option String))
    (permalink : Option String) (subject_id : Option (Option String))
    (now : Timestamp) : FileRecord :=
  { id := r.id, mime_type := r.mime_type, file_type := r.file_type,
    byte_size := r.byte_size, permalink := permalink.getD r.permalink,
    created_at := r.created_at, updated_at := now,
    alt := alt.getD r.alt, description := description.getD r.description,
    metadata := metadata.getD r.metadata, name := name.getD r.name,
    subject_id := subject_id.getD r.subject_id }

/-- A record used by the concrete scenarios below. -/
def sampleRecord : FileRecord :=
  { id := "f1", mime_type := "image/png", file_type := FileType.Image,
    byte_size := 4, permalink := "a.png", created_at := 0, updated_at := 0,
    alt := none, description := none, metadata := none, name := none,
    subject_id := none }

/-- A one-record store reached by a single `put`. -/
def sampleDB : DB := put_file emptyDB sampleRecord

/-- An `UpdateFile` op whose patches are all `Absent` and whose permalink is
omitted. -/
def sampleUpdateOp : WriteOp :=
  WriteOp.UpdateFile "f1" Patch.Absent Patch.Absent Patch.Absent Patch.Absent
    none Patch.Absent

/-- An id overwritten by `put_file` with a changed permalink. -/
def permaCexOps : List Op :=
  [Op.put { sampleRecord with id := "a", permalink := "p" },
   Op.put { sampleRecord with id := "a", permalink := "q" }]

/-- A collision-free put / permalink-changing update / delete sequence. -/
def permaGoodOps : List Op :=
  [Op.put { sampleRecord with id := "a", permalink := "p" },
   Op.upd "a" none none none none (some "q") none 1,
   Op.del "a"]

/-- An id overwritten by `put_file` with a changed subject. -/
def subjectCexOps : List Op :=
  [Op.put { sampleRecord with id := "a", subject_id := some "s1" },
   Op.put { sampleRecord with id := "a", subject_id := some "s2" }]

/-- A sequence exercising every allowed subject move: a subject-less put, a
put-overwrite that first gives the record a subject, a subject-moving
update, and a delete. -/
def subjectGoodOps : List Op :=
  [Op.put { sampleRecord with id := "a" },
   Op.put { sampleRecord with id := "a", subject_id := some "s1" },
   Op.upd "a" none none none none none (some (some "s2")) 1,
   Op.del "a"]

/-- The C5 claim as stated: restoring a snapshot into a freshly empty store
reproduces the record map and reproduces both index tables exactly. -/
def restoreReproduces (db : DB) : Prop :=
  (∀ i, alget i (FileStateMachine.restore emptyDB
      (FileStateMachine.snapshot db)).files = alget i db.files) ∧
  (FileStateMachine.restore emptyDB
      (FileStateMachine.snapshot db)).permalinks = db.permalinks ∧
  (FileStateMachine.restore emptyDB
      (FileStateMachine.snapshot db)).subjects = db.subjects

/-- A run whose final state breaks the round trip twice over: id `a` was
overwritten with a new permalink (stale index entry survives in the
original but not in the restored store), and the subject list `[b, a]`
reflects insertion order while restore re-inserts in id order. -/
def roundTripCexOps : List Op :=
  [Op.put { sampleRecord with id := "b", permalink := "pb", subject_id := some "s" },
   Op.put { sampleRecord with id := "a", permalink := "pa", subject_id := some "s" },
   Op.put { sampleRecord with id := "a", permalink := "pa2", subject_id := some "s" }]

/-- Ops for the C5 witness: two fresh puts with distinct everything. -/
def roundTripGoodOps : List Op :=
  [Op.put { sampleRecord with id := "b", permalink := "pb", subject_id := some "s" },
   Op.put { sampleRecord with id := "a", permalink := "pa", subject_id := some "s" }]

theorem alget_insert {V : Type} (k k' : String) (v : V) (m : List (String × V)) :
    alget k' (alinsert k v m) = if k' = k then some v else alget k' m := by
  induction m with
  | nil =>
    simp only [alinsert, alget]
  | cons hd tl ih =>
    obtain ⟨a, b⟩ := hd
    simp only [alinsert]
    by_cases h1 : strLt k a = true
    · rw [if_pos h1]
      simp only [alget]
    · rw [if_neg h1]
      by_cases h2 : k = a
      · rw [if_pos h2]
        simp only [alget]
        by_cases h3 : k' = k
        · rw [if_pos h3, if_pos h3]
        · rw [if_neg h3, if_neg h3, if_neg (fun hh => h3 (hh.trans h2.symm))]
      · rw [if_neg h2]
        simp only [alget, ih]
        by_cases h3 : k' = a
        · rw [if_pos h3, if_neg (fun hh : k' = k => h2 (hh.symm.trans h3)),
            if_pos h3]
        · by_cases h4 : k' = k
          · rw [if_neg h3, if_pos h4, if_pos h4]
          · rw [if_neg h3, if_neg h4, if_neg h4, if_neg h3]

theorem alget_remove {V : Type} (k k' : String) (m : List (String × V)) :
    alget k' (alremove k m) = if k' = k then none else alget k' m := by
  induction m with
  | nil =>
    by_cases h : k' = k <;> simp [alremove, alget, h]
  | cons hd tl ih =>
    obtain ⟨a, b⟩ := hd
    simp only [alremove, List.filter_cons] at ih ⊢
    by_cases ha : a = k
    · rw [if_neg (by simp [ha])]
      rw [ih]
      by_cases h3 : k' = k
      · rw [if_pos h3, if_pos h3]
      · rw [if_neg h3, if_neg h3]
        simp only [alget]
        rw [if_neg (fun hh : k' = a => h3 (hh.trans ha))]
    · rw [if_pos (by simp [ha])]
      simp only [alget, ih]
      by_cases h3 : k' = a
      · rw [if_pos h3, if_neg (fun hh : k' = k => ha (h3.symm.trans hh)),
          if_pos h3]
      · by_cases h4 : k' = k
        · rw [if_neg h3, if_pos h4, if_pos h4]
        · rw [if_neg h3, if_neg h4, if_neg h4, if_neg h3]

theorem alget_mem {V : Type} {k : String} {v : V} {m : List (String × V)}
    (h : alget k m = some v) : (k, v) ∈ m := by
  induction m with
  | nil => simp [alget] at h
  | cons hd tl ih =>
    obtain ⟨a, b⟩ := hd
    simp only [alget] at h
    by_cases hk : k = a
    · subst hk
      rw [if_pos rfl] at h
      obtain rfl := Option.some.inj h
      exact List.mem_cons_self _ _
    · rw [if_neg hk] at h
      exact List.mem_cons_of_mem _ (ih h)

/-- The `FILES` table after a hitting `update_file` holds exactly the
field-wise `updatedRecord` under the updated id. -/
theorem update_file_files (db : DB) (id : String) (r : FileRecord)
    (h : alget id db.files = some r) (alt description : Option (Option String))
    (metadata : Option (Option Metadata)) (name : Option (Option String))
    (permalink : Option String) (subject_id : Option (Option String))
    (now : Timestamp) :
    (update_file db id alt description metadata name permalink subject_id
        now).1.files =
      alinsert id (updatedRecord r alt description metadata name permalink
        subject_id now) db.files := by
  simp only [update_file, h]
  rcases alt with _ | a <;> rcases description with _ | d <;>
    rcases metadata with _ | mm <;> rcases name with _ | n <;>
    rcases permalink with _ | p <;> rcases subject_id with _ | s <;> rfl

/-- The `FILE_PERMALINKS` table after a hitting `update_file`: unchanged if
no permalink was supplied, else the old record's entry removed and the new
permalink inserted. -/
theorem update_file_permalinks (db : DB) (id : String) (r : FileRecord)
    (h : alget id db.files = some r) (alt description : Option (Option String))
    (metadata : Option (Option Metadata)) (name : Option (Option String))
    (permalink : Option String) (subject_id : Option (Option String))
    (now : Timestamp) :
    (update_file db id alt description metadata name permalink subject_id
        now).1.permalinks =
      match permalink with
      | some newp => alinsert newp id (alremove r.permalink db.permalinks)
      | none => db.permalinks := by
  simp only [update_file, h]
  rcases alt with _ | a <;> rcases description with _ | d <;>
    rcases metadata with _ | mm <;> rcases name with _ | n <;>
    rcases permalink with _ | p <;> rcases subject_id with _ | s <;> rfl

/-- The `SUBJECT_FILES` table after a hitting `update_file` is
`updatedSubjects` of the old record's subject and the subject patch. -/
theorem update_file_subjects (db : DB) (id : String) (r : FileRecord)
    (h : alget id db.files = some r) (alt description : Option (Option String))
    (metadata : Option (Option Metadata)) (name : Option (Option String))
    (permalink : Option String) (subject_id : Option (Option String))
    (now : Timestamp) :
    (update_file db id alt description metadata name permalink subject_id
        now).1.subjects =
      updatedSubjects db.subjects r.subject_id subject_id id := by
  simp only [update_file, h, updatedSubjects]
  rcases alt with _ | a <;> rcases description with _ | d <;>
    rcases metadata with _ | mm <;> rcases name with _ | n <;>
    rcases permalink with _ | p <;> rcases subject_id with _ | s <;> rfl

theorem charListLt_irrefl (l : List Char) : charListLt l l = false := by
  induction l with
  | nil => rfl
  | cons c cs ih =>
    simp only [charListLt]
    rw [if_neg (lt_irrefl c.toNat), if_neg (lt_irrefl c.toNat)]
    exact ih

theorem charListLt_trans {l1 l2 l3 : List Char}
    (h12 : charListLt l1 l2 = true) (h23 : charListLt l2 l3 = true) :
    charListLt l1 l3 = true := by
  induction l1 generalizing l2 l3 with
  | nil =>
    cases l3 with
    | nil =>
      cases l2 with
      | nil => exact h23
      | cons d ds => exact absurd h23 Bool.false_ne_true
    | cons e es => rfl
  | cons c cs ih =>
    cases l2 with
    | nil => exact absurd h12 Bool.false_ne_true
    | cons d ds =>
      cases l3 with
      | nil => exact absurd h23 Bool.false_ne_true
      | cons e es =>
        simp only [charListLt] at h12 h23 ⊢
        by_cases hcd : c.toNat < d.toNat
        · by_cases hde : d.toNat < e.toNat
          · rw [if_pos (Nat.lt_trans hcd hde)]
          · rw [if_neg hde] at h23
            by_cases hed : e.toNat < d.toNat
            · rw [if_pos hed] at h23
              exact absurd h23 Bool.false_ne_true
            · rw [if_pos (by omega : c.toNat < e.toNat)]
        · rw [if_neg hcd] at h12
          by_cases hdc : d.toNat < c.toNat
          · rw [if_pos hdc] at h12
            exact absurd h12 Bool.false_ne_true
          · rw [if_neg hdc] at h12
            by_cases hde : d.toNat < e.toNat
            · rw [if_pos (by omega : c.toNat < e.toNat)]
            · rw [if_neg hde] at h23
              by_cases hed : e.toNat < d.toNat
              · rw [if_pos hed] at h23
                exact absurd h23 Bool.false_ne_true
              · rw [if_neg hed] at h23
                rw [if_neg (by omega : ¬ c.toNat < e.toNat),
                  if_neg (by omega : ¬ e.toNat < c.toNat)]
                exact ih h12 h23

theorem charListLt_connex {l1 l2 : List Char} (hne : ¬ l1 = l2) :
    charListLt l1 l2 = true ∨ charListLt l2 l1 = true := by
  induction l1 generalizing l2 with
  | nil =>
    cases l2 with
    | nil => exact absurd rfl hne
    | cons d ds => exact Or.inl rfl
  | cons c cs ih =>
    cases l2 with
    | nil => exact Or.inr rfl
    | cons d ds =>
      by_cases hcd : c.toNat < d.toNat
      · refine Or.inl ?_
        simp only [charListLt]
        rw [if_pos hcd]
      · by_cases hdc : d.toNat < c.toNat
        · refine Or.inr ?_
          simp only [charListLt]
          rw [if_pos hdc]
        · have hc : c = d :=
            Char.ext_iff.mpr (UInt32.ext (by omega : c.toNat = d.toNat))
          subst hc
          have hne' : ¬ cs = ds := fun hh => hne (by rw [hh])
          rcases ih hne' with h | h
          · refine Or.inl ?_
            simp only [charListLt]
            rw [if_neg hcd, if_neg hdc]
            exact h
          · refine Or.inr ?_
            simp only [charListLt]
            rw [if_neg hdc, if_neg hcd]
            exact h

theorem strLt_irrefl (a : String) : ¬ strLt a a = true := by
  rw [strLt, charListLt_irrefl]
  exact Bool.false_ne_true

theorem strLt_trans {a b c : String} (h1 : strLt a b = true)
    (h2 : strLt b c = true) : strLt a c = true :=
  charListLt_trans h1 h2

theorem strLt_connex {a b : String} (hne : ¬ a = b) :
    strLt a b = true ∨ strLt b a = true :=
  charListLt_connex (fun hh => hne (congrArg String.mk hh))

theorem alinsert_mem {V : Type} {k : String} {v : V} {m : List (String × V)}
    {e : String × V} (h : e ∈ alinsert k v m) : e = (k, v) ∨ e ∈ m := by
  induction m with
  | nil => simpa [alinsert] using h
  | cons hd tl ih =>
    obtain ⟨a, b⟩ := hd
    simp only [alinsert] at h
    by_cases h1 : strLt k a = true
    · rw [if_pos h1] at h
      rcases List.mem_cons.mp h with rfl | h'
      · exact Or.inl rfl
      · exact Or.inr h'
    · rw [if_neg h1] at h
      by_cases h2 : k = a
      · rw [if_pos h2] at h
        rcases List.mem_cons.mp h with rfl | h'
        · exact Or.inl rfl
        · exact Or.inr (List.mem_cons_of_mem _ h')
      · rw [if_neg h2] at h
        rcases List.mem_cons.mp h with rfl | h'
        · exact Or.inr (List.mem_cons_self _ _)
        · rcases ih h' with heq | hmem
          · exact Or.inl heq
          · exact Or.inr (List.mem_cons_of_mem _ hmem)

theorem alinsert_pairwise {V : Type} (k : String) (v : V)
    (m : List (String × V))
    (hm : List.Pairwise (fun a b => strLt a.1 b.1 = true) m) :
    List.Pairwise (fun a b => strLt a.1 b.1 = true) (alinsert k v m) := by
  induction m with
  | nil =>
    simp only [alinsert]
    exact List.pairwise_singleton _ _
  | cons hd tl ih =>
    obtain ⟨a, b⟩ := hd
    rw [List.pairwise_cons] at hm
    obtain ⟨hhd, htl⟩ := hm
    simp only [alinsert]
    by_cases h1 : strLt k a = true
    · rw [if_pos h1, List.pairwise_cons]
      constructor
      · intro e he
        rcases List.mem_cons.mp he with rfl | he'
        · exact h1
        · exact strLt_trans h1 (hhd e he')
      · rw [List.pairwise_cons]
        exact ⟨hhd, htl⟩
    · rw [if_neg h1]
      by_cases h2 : k = a
      · rw [if_pos h2, List.pairwise_cons]
        refine ⟨?_, htl⟩
        intro e he
        rw [h2]
        exact hhd e he
      · rw [if_neg h2, List.pairwise_cons]
        refine ⟨?_, ih htl⟩
        intro e he
        rcases alinsert_mem he with rfl | he'
        · rcases strLt_connex h2 with h | h
          · exact absurd h h1
          · exact h
        · exact hhd e he'

theorem pairwise_keys_nodup {V : Type} (m : List (String × V))
    (hm : List.Pairwise (fun a b => strLt a.1 b.1 = true) m) :
    (m.map Prod.fst).Nodup := by
  show (m.map Prod.fst).Pairwise (· ≠ ·)
  rw [List.pairwise_map]
  refine hm.imp ?_
  intro a b hab heq
  exact strLt_irrefl b.1 (heq ▸ hab)

theorem alget_of_mem {V : Type} {m : List (String × V)}
    (hnd : (m.map Prod.fst).Nodup) {k : String} {v : V} (h : (k, v) ∈ m) :
    alget k m = some v := by
  induction m with
  | nil => cases h
  | cons hd tl ih =>
    obtain ⟨a, b⟩ := hd
    rw [List.map_cons, List.nodup_cons] at hnd
    rcases List.mem_cons.mp h with heq | hmem
    · obtain ⟨rfl, rfl⟩ := Prod.mk.injEq .. ▸ heq
      simp [alget]
    · by_cases hk : k = a
      · subst hk
        exact absurd (List.mem_map_of_mem Prod.fst hmem) hnd.1
      · simp only [alget, if_neg hk]
        exact ih hnd.2 hmem

theorem liveOf_alinsert (files : List (String × FileRecord)) (idk : String)
    (u : FileRecord) (i s : String) :
    liveOf (alinsert idk u files) i s ↔
      (i = idk ∧ u.subject_id = some s) ∨ (¬ i = idk ∧ liveOf files i s) := by
  unfold liveOf
  rw [alget_insert]
  by_cases hi : i = idk
  · rw [if_pos hi]
    constructor
    · rintro ⟨rr, hr, hsub⟩
      obtain rfl := Option.some.inj hr
      exact Or.inl ⟨hi, hsub⟩
    · rintro (⟨-, hsub⟩ | ⟨hni, -⟩)
      · exact ⟨u, rfl, hsub⟩
      · exact absurd hi hni
  · rw [if_neg hi]
    constructor
    · rintro ⟨rr, hr, hsub⟩
      exact Or.inr ⟨hi, rr, hr, hsub⟩
    · rintro (⟨hii, -⟩ | ⟨-, rr, hr, hsub⟩)
      · exact absurd hii hi
      · exact ⟨rr, hr, hsub⟩

theorem liveOf_alremove (files : List (String × FileRecord)) (idk : String)
    (i s : String) :
    liveOf (alremove idk files) i s ↔ ¬ i = idk ∧ liveOf files i s := by
  unfold liveOf
  rw [alget_remove]
  by_cases hi : i = idk
  · rw [if_pos hi]
    constructor
    · rintro ⟨rr, hr, -⟩
      exact Option.noConfusion hr
    · rintro ⟨hni, -⟩
      exact absurd hi hni
  · rw [if_neg hi]
    constructor
    · rintro ⟨rr, hr, hsub⟩
      exact ⟨hi, rr, hr, hsub⟩
    · rintro ⟨-, rr, hr, hsub⟩
      exact ⟨rr, hr, hsub⟩

theorem subjTableOk_congr (t : List (String × List String))
    (live live' : String → String → Prop) (h : subjTableOk t live)
    (hiff : ∀ i s, live i s ↔ live' i s) : subjTableOk t live' := by
  obtain ⟨hc, hcomp⟩ := h
  constructor
  · intro s ids hids
    obtain ⟨h1, h2, h3⟩ := hc s ids hids
    exact ⟨h1, h2, fun i => (h3 i).trans (hiff i s)⟩
  · intro i s hl
    exact hcomp i s ((hiff i s).mpr hl)

/-- Removing an id from its (only) subject key keeps the subject table
exact, for the live predicate with that id struck out. -/
theorem subjTableOk_erase (t : List (String × List String))
    (live : String → String → Prop) (sid id : String)
    (h : subjTableOk t live) (hid : ∀ s, live id s → s = sid) :
    subjTableOk (subject_remove_id t sid id)
      (fun i s => ¬ i = id ∧ live i s) := by
  obtain ⟨hc, hcomp⟩ := h
  cases h0 : alget sid t with
  | none =>
    simp only [subject_remove_id, h0]
    constructor
    · intro s ids hids
      obtain ⟨h1, h2, h3⟩ := hc s ids hids
      refine ⟨h1, h2, fun i => ?_⟩
      rw [h3 i]
      constructor
      · intro hl
        refine ⟨?_, hl⟩
        intro hii
        subst hii
        obtain ⟨ids', hi1, -⟩ := hcomp i s hl
        rw [hid s hl, h0] at hi1
        exact Option.noConfusion hi1
      · exact fun hl => hl.2
    · intro i s hl
      exact hcomp i s hl.2
  | some ids0 =>
    obtain ⟨hne0, hnd0, hm0⟩ := hc sid ids0 h0
    simp only [subject_remove_id, h0]
    split
    case isTrue hempty =>
      constructor
      · intro s ids hids
        rw [alget_remove] at hids
        by_cases hs : s = sid
        · rw [if_pos hs] at hids
          exact Option.noConfusion hids
        · rw [if_neg hs] at hids
          obtain ⟨h1, h2, h3⟩ := hc s ids hids
          refine ⟨h1, h2, fun i => ?_⟩
          rw [h3 i]
          constructor
          · intro hl
            refine ⟨?_, hl⟩
            intro hii
            subst hii
            exact hs (hid s hl)
          · exact fun hl => hl.2
      · rintro i s ⟨hni, hl⟩
        obtain ⟨ids, hh, hm⟩ := hcomp i s hl
        by_cases hs : s = sid
        · subst hs
          rw [h0] at hh
          obtain rfl := Option.some.inj hh
          have hmm : i ∈ List.filter (fun fid => decide (fid ≠ id)) ids0 :=
            List.mem_filter.mpr ⟨hm, decide_eq_true hni⟩
          rw [hempty] at hmm
          exact absurd hmm (List.not_mem_nil i)
        · refine ⟨ids, ?_, hm⟩
          rw [alget_remove, if_neg hs]
          exact hh
    case isFalse hempty =>
      constructor
      · intro s ids hids
        rw [alget_insert] at hids
        by_cases hs : s = sid
        · subst hs
          rw [if_pos rfl] at hids
          obtain rfl := Option.some.inj hids
          refine ⟨hempty, hnd0.filter _, fun i => ?_⟩
          rw [List.mem_filter, decide_eq_true_eq, hm0 i]
          exact ⟨fun hh => ⟨hh.2, hh.1⟩, fun hh => ⟨hh.2, hh.1⟩⟩
        · rw [if_neg hs] at hids
          obtain ⟨h1, h2, h3⟩ := hc s ids hids
          refine ⟨h1, h2, fun i => ?_⟩
          rw [h3 i]
          constructor
          · intro hl
            refine ⟨?_, hl⟩
            intro hii
            subst hii
            exact hs (hid s hl)
          · exact fun hl => hl.2
      · rintro i s ⟨hni, hl⟩
        obtain ⟨ids, hh, hm⟩ := hcomp i s hl
        by_cases hs : s = sid
        · subst hs
          rw [h0] at hh
          obtain rfl := Option.some.inj hh
          refine ⟨List.filter (fun fid => decide (fid ≠ id)) ids0, ?_, ?_⟩
          · rw [alget_insert, if_pos rfl]
          · exact List.mem_filter.mpr ⟨hm, decide_eq_true hni⟩
        · refine ⟨ids, ?_, hm⟩
          rw [alget_insert, if_neg hs]
          exact hh

/-- Appending a fresh id to a subject key keeps the subject table exact, for
the live predicate extended with that (id, subject) pair. -/
theorem subjTableOk_add (t : List (String × List String))
    (live : String → String → Prop) (sid id : String)
    (h : subjTableOk t live) (hid : ∀ s, ¬ live id s) :
    subjTableOk (subject_add_id t sid id)
      (fun i s => (i = id ∧ s = sid) ∨ live i s) := by
  obtain ⟨hc, hcomp⟩ := h
  cases h0 : alget sid t with
  | none =>
    simp only [subject_add_id, h0, Option.getD, List.nil_append]
    rw [if_neg (List.not_mem_nil id)]
    constructor
    · intro s ids hids
      rw [alget_insert] at hids
      by_cases hs : s = sid
      · subst hs
        rw [if_pos rfl] at hids
        obtain rfl := Option.some.inj hids
        refine ⟨by simp, List.nodup_singleton id, fun i => ?_⟩
        constructor
        · intro hm
          rw [List.mem_singleton] at hm
          exact Or.inl ⟨hm, rfl⟩
        · rintro (⟨hii, -⟩ | hl)
          · rw [List.mem_singleton]
            exact hii
          · obtain ⟨ids', hh, -⟩ := hcomp i s hl
            rw [h0] at hh
            exact Option.noConfusion hh
      · rw [if_neg hs] at hids
        obtain ⟨h1, h2, h3⟩ := hc s ids hids
        refine ⟨h1, h2, fun i => ?_⟩
        rw [h3 i]
        constructor
        · exact fun hl => Or.inr hl
        · rintro (⟨-, hss⟩ | hl)
          · exact absurd hss hs
          · exact hl
    · rintro i s (⟨hii, hss⟩ | hl)
      · subst hii
        subst hss
        refine ⟨[i], ?_, ?_⟩
        · rw [alget_insert, if_pos rfl]
        · simp
      · obtain ⟨ids, hh, hm⟩ := hcomp i s hl
        by_cases hs : s = sid
        · rw [hs, h0] at hh
          exact Option.noConfusion hh
        · refine ⟨ids, ?_, hm⟩
          rw [alget_insert, if_neg hs]
          exact hh
  | some ids0 =>
    obtain ⟨hne0, hnd0, hm0⟩ := hc sid ids0 h0
    by_cases hmem : id ∈ ids0
    · exact absurd ((hm0 id).mp hmem) (hid sid)
    · simp only [subject_add_id, h0, Option.getD]
      rw [if_neg hmem]
      constructor
      · intro s ids hids
        rw [alget_insert] at hids
        by_cases hs : s = sid
        · subst hs
          rw [if_pos rfl] at hids
          obtain rfl := Option.some.inj hids
          refine ⟨by simp, ?_, fun i => ?_⟩
          · rw [List.nodup_append]
            refine ⟨hnd0, List.nodup_singleton id, fun a ha hb => ?_⟩
            rw [List.mem_singleton] at hb
            subst hb
            exact hmem ha
          · rw [List.mem_append, List.mem_singleton, hm0 i]
            constructor
            · rintro (hl | hii)
              · exact Or.inr hl
              · exact Or.inl ⟨hii, rfl⟩
            · rintro (⟨hii, -⟩ | hl)
              · exact Or.inr hii
              · exact Or.inl hl
        · rw [if_neg hs] at hids
          obtain ⟨h1, h2, h3⟩ := hc s ids hids
          refine ⟨h1, h2, fun i => ?_⟩
          rw [h3 i]
          constructor
          · exact fun hl => Or.inr hl
          · rintro (⟨-, hss⟩ | hl)
            · exact absurd hss hs
            · exact hl
      · rintro i s (⟨hii, hss⟩ | hl)
        · subst hii
          subst hss
          refine ⟨ids0 ++ [i], ?_, ?_⟩
          · rw [alget_insert, if_pos rfl]
          · simp
        · obtain ⟨ids, hh, hm⟩ := hcomp i s hl
          by_cases hs : s = sid
          · subst hs
            rw [h0] at hh
            obtain rfl := Option.some.inj hh
            refine ⟨ids0 ++ [id], ?_, ?_⟩
            · rw [alget_insert, if_pos rfl]
            · rw [List.mem_append]
              exact Or.inl hm
          · refine ⟨ids, ?_, hm⟩
            rw [alget_insert, if_neg hs]
            exact hh

theorem put_file_files (db : DB) (f : FileRecord) :
    (put_file db f).files = alinsert f.id f db.files := rfl

theorem put_file_permalinks (db : DB) (f : FileRecord) :
    (put_file db f).permalinks = alinsert f.permalink f.id db.permalinks := rfl

/-- `subject_add_id` is the identity when the id is already listed. -/
theorem subject_add_id_mem (t : List (String × List String)) (sid id : String)
    (ids0 : List String) (h0 : alget sid t = some ids0) (hmem : id ∈ ids0) :
    subject_add_id t sid id = t := by
  simp only [subject_add_id, h0, Option.getD]
  rw [if_pos hmem]

/-- `put_file` preserves the subject-index invariant whenever the put's id
carries no subject beforehand: the id is fresh, or it overwrites a
subject-less record. -/
theorem subjectInvFull_put_of_nolive (db : DB) (f : FileRecord)
    (hinv : subjectInvFull db) (hnolive : ∀ s, ¬ liveOf db.files f.id s) :
    subjectInvFull (put_file db f) := by
  unfold subjectInvFull at hinv ⊢
  rw [put_file_files]
  cases hfs : f.subject_id with
  | none =>
    have hsubj : (put_file db f).subjects = db.subjects := by
      simp only [put_file, hfs]
    rw [hsubj]
    refine subjTableOk_congr _ _ _ hinv ?_
    intro i s
    rw [liveOf_alinsert]
    by_cases hi : i = f.id
    · subst hi
      constructor
      · intro hl
        exact absurd hl (hnolive s)
      · rintro (⟨-, hss⟩ | ⟨hni, -⟩)
        · rw [hfs] at hss
          exact Option.noConfusion hss
        · exact absurd rfl hni
    · constructor
      · intro hl
        exact Or.inr ⟨hi, hl⟩
      · rintro (⟨hii, -⟩ | ⟨-, hl⟩)
        · exact absurd hii hi
        · exact hl
  | some sid =>
    have hsubj : (put_file db f).subjects =
        subject_add_id db.subjects sid f.id := by
      simp only [put_file, hfs]
    rw [hsubj]
    have hadd := subjTableOk_add db.subjects (liveOf db.files) sid f.id
      hinv hnolive
    refine subjTableOk_congr _ _ _ hadd ?_
    intro i s
    rw [liveOf_alinsert]
    by_cases hi : i = f.id
    · subst hi
      constructor
      · rintro (⟨-, hss⟩ | hl)
        · refine Or.inl ⟨rfl, ?_⟩
          rw [hfs]
          exact congrArg some hss.symm
        · exact absurd hl (hnolive s)
      · rintro (⟨-, hss⟩ | ⟨hni, -⟩)
        · rw [hfs] at hss
          exact Or.inl ⟨rfl, (Option.some.inj hss).symm⟩
        · exact absurd rfl hni
    · constructor
      · rintro (⟨hii, -⟩ | hl)
        · exact absurd hii hi
        · exact Or.inr ⟨hi, hl⟩
      · rintro (⟨hii, -⟩ | ⟨-, hl⟩)
        · exact absurd hii hi
        · exact Or.inr hl

/-- `put_file` preserves the subject-index invariant when the put does not
change or drop the subject of an overwritten record that has one. -/
theorem subjectInvFull_put (db : DB) (f : FileRecord)
    (hinv : subjectInvFull db) (hok : subjOk db (Op.put f) = true) :
    subjectInvFull (put_file db f) := by
  cases hfid : alget f.id db.files with
  | none =>
    refine subjectInvFull_put_of_nolive db f hinv ?_
    rintro s ⟨rr, hr, -⟩
    rw [hfid] at hr
    exact Option.noConfusion hr
  | some old =>
    cases hos : old.subject_id with
    | none =>
      refine subjectInvFull_put_of_nolive db f hinv ?_
      rintro s ⟨rr, hr, hss⟩
      rw [hfid] at hr
      obtain rfl := Option.some.inj hr
      rw [hos] at hss
      exact Option.noConfusion hss
    | some osid =>
      have hsub : old.subject_id = f.subject_id := by
        simp only [subjOk, hfid, hos, decide_eq_true_eq] at hok
        rw [hos]
        exact hok
      unfold subjectInvFull at hinv ⊢
      rw [put_file_files]
      have hlive : ∀ i s, liveOf db.files i s ↔
          liveOf (alinsert f.id f db.files) i s := by
        intro i s
        rw [liveOf_alinsert]
        by_cases hi : i = f.id
        · subst hi
          constructor
          · rintro ⟨rr, hr, hss⟩
            rw [hfid] at hr
            obtain rfl := Option.some.inj hr
            exact Or.inl ⟨rfl, by rw [← hsub]; exact hss⟩
          · rintro (⟨-, hss⟩ | ⟨hni, -⟩)
            · exact ⟨old, hfid, by rw [hsub]; exact hss⟩
            · exact absurd rfl hni
        · constructor
          · intro hl
            exact Or.inr ⟨hi, hl⟩
          · rintro (⟨hii, -⟩ | ⟨-, hl⟩)
            · exact absurd hii hi
            · exact hl
      cases hfs : f.subject_id with
      | none =>
        have hsubj : (put_file db f).subjects = db.subjects := by
          simp only [put_file, hfs]
        rw [hsubj]
        exact subjTableOk_congr _ _ _ hinv hlive
      | some sid =>
        have hold : old.subject_id = some sid := by rw [hsub, hfs]
        obtain ⟨ids, hh, hm⟩ := hinv.2 f.id sid ⟨old, hfid, hold⟩
        have hsubj : (put_file db f).subjects = db.subjects := by
          simp only [put_file, hfs]
          exact subject_add_id_mem db.subjects sid f.id ids hh hm
        rw [hsubj]
        exact subjTableOk_congr _ _ _ hinv hlive

/-- `delete_file` always preserves the subject-index invariant. -/
theorem subjectInvFull_del (db : DB) (id : String)
    (hinv : subjectInvFull db) : subjectInvFull (delete_file db id).1 := by
  unfold subjectInvFull at hinv ⊢
  cases hfid : alget id db.files with
  | none =>
    simp only [delete_file, hfid]
    exact hinv
  | some file =>
    have hfiles : (delete_file db id).1.files = alremove id db.files := by
      simp only [delete_file, hfid]
    rw [hfiles]
    cases hfs : file.subject_id with
    | none =>
      have hsubj : (delete_file db id).1.subjects = db.subjects := by
        simp only [delete_file, hfid, hfs]
      rw [hsubj]
      refine subjTableOk_congr _ _ _ hinv ?_
      intro i s
      rw [liveOf_alremove]
      by_cases hi : i = id
      · subst hi
        constructor
        · rintro ⟨rr, hr, hss⟩
          rw [hfid] at hr
          obtain rfl := Option.some.inj hr
          rw [hfs] at hss
          exact Option.noConfusion hss
        · rintro ⟨hni, -⟩
          exact absurd rfl hni
      · exact ⟨fun hl => ⟨hi, hl⟩, fun hl => hl.2⟩
    | some sid =>
      have hsubj : (delete_file db id).1.subjects =
          subject_remove_id db.subjects sid id := by
        simp only [delete_file, hfid, hfs]
      rw [hsubj]
      have hid : ∀ s, liveOf db.files id s → s = sid := by
        rintro s ⟨rr, hr, hss⟩
        rw [hfid] at hr
        obtain rfl := Option.some.inj hr
        rw [hfs] at hss
        exact (Option.some.inj hss).symm
      have herase := subjTableOk_erase db.subjects (liveOf db.files) sid id
        hinv hid
      refine subjTableOk_congr _ _ _ herase ?_
      intro i s
      rw [liveOf_alremove]

/-- `update_file` always preserves the subject-index invariant. -/
theorem subjectInvFull_upd (db : DB) (id : String)
    (alt description : Option (Option String))
    (metadata : Option (Option Metadata)) (name : Option (Option String))
    (permalink : Option String) (subject_id : Option (Option String))
    (now : Timestamp) (hinv : subjectInvFull db) :
    subjectInvFull (update_file db id alt description metadata name permalink
      subject_id now).1 := by
  unfold subjectInvFull at hinv ⊢
  cases hfid : alget id db.files with
  | none =>
    simp only [update_file, hfid]
    exact hinv
  | some r =>
    rw [update_file_files db id r hfid alt description metadata name permalink
      subject_id now,
      update_file_subjects db id r hfid alt description metadata name
      permalink subject_id now]
    rcases subject_id with _ | newsub
    · show subjTableOk db.subjects _
      refine subjTableOk_congr _ _ _ hinv ?_
      intro i s
      rw [liveOf_alinsert]
      by_cases hi : i = id
      · subst hi
        constructor
        · rintro ⟨rr, hr, hss⟩
          rw [hfid] at hr
          obtain rfl := Option.some.inj hr
          exact Or.inl ⟨rfl, hss⟩
        · rintro (⟨-, hss⟩ | ⟨hni, -⟩)
          · exact ⟨r, hfid, hss⟩
          · exact absurd rfl hni
      · constructor
        · intro hl
          exact Or.inr ⟨hi, hl⟩
        · rintro (⟨hii, -⟩ | ⟨-, hl⟩)
          · exact absurd hii hi
          · exact hl
    · have step1 : subjTableOk (match r.subject_id with
          | some old_sid => subject_remove_id db.subjects old_sid id
          | none => db.subjects)
          (fun i s => ¬ i = id ∧ liveOf db.files i s) := by
        cases hrs : r.subject_id with
        | none =>
          refine subjTableOk_congr _ _ _ hinv ?_
          intro i s
          by_cases hi : i = id
          · subst hi
            constructor
            · rintro ⟨rr, hr, hss⟩
              rw [hfid] at hr
              obtain rfl := Option.some.inj hr
              rw [hrs] at hss
              exact Option.noConfusion hss
            · rintro ⟨hni, -⟩
              exact absurd rfl hni
          · exact ⟨fun hl => ⟨hi, hl⟩, fun hl => hl.2⟩
        | some old_sid =>
          refine subjTableOk_erase _ _ _ _ hinv ?_
          rintro s ⟨rr, hr, hss⟩
          rw [hfid] at hr
          obtain rfl := Option.some.inj hr
          rw [hrs] at hss
          exact (Option.some.inj hss).symm
      rcases newsub with _ | ns
      · show subjTableOk (match r.subject_id with
          | some old_sid => subject_remove_id db.subjects old_sid id
          | none => db.subjects) _
        refine subjTableOk_congr _ _ _ step1 ?_
        intro i s
        rw [liveOf_alinsert]
        by_cases hi : i = id
        · subst hi
          constructor
          · rintro ⟨hni, -⟩
            exact absurd rfl hni
          · rintro (⟨-, hss⟩ | ⟨hni, -⟩)
            · exact Option.noConfusion hss
            · exact absurd rfl hni
        · constructor
          · rintro ⟨hni, hl⟩
            exact Or.inr ⟨hni, hl⟩
          · rintro (⟨hii, -⟩ | ⟨hni, hl⟩)
            · exact absurd hii hi
            · exact ⟨hni, hl⟩
      · show subjTableOk (subject_add_id (match r.subject_id with
          | some old_sid => subject_remove_id db.subjects old_sid id
          | none => db.subjects) ns id) _
        have step2 := subjTableOk_add _ _ ns id step1
          (by rintro s ⟨hni, -⟩; exact hni rfl)
        refine subjTableOk_congr _ _ _ step2 ?_
        intro i s
        rw [liveOf_alinsert]
        by_cases hi : i = id
        · subst hi
          constructor
          · rintro (⟨-, hss⟩ | ⟨hni, -⟩)
            · refine Or.inl ⟨rfl, ?_⟩
              exact congrArg some hss.symm
            · exact absurd rfl hni
          · rintro (⟨-, hss⟩ | ⟨hni, -⟩)
            · exact Or.inl ⟨rfl, (Option.some.inj hss).symm⟩
            · exact absurd rfl hni
        · constructor
          · rintro (⟨hii, -⟩ | ⟨hni, hl⟩)
            · exact absurd hii hi
            · exact Or.inr ⟨hni, hl⟩
          · rintro (⟨hii, -⟩ | ⟨hni, hl⟩)
            · exact absurd hii hi
            · exact Or.inr ⟨hni, hl⟩

/-- `put_file` preserves the permalink invariant when the put is
collision-free. -/
theorem permalinkInv_put (db : DB) (f : FileRecord) (hinv : permalinkInv db)
    (hok : permaOk db (Op.put f) = true) : permalinkInv (put_file db f) := by
  intro p i
  simp only [put_file, alget_insert]
  cases hfid : alget f.id db.files with
  | some old =>
    have hperm : old.permalink = f.permalink := by
      simp only [permaOk, hfid, decide_eq_true_eq] at hok
      exact hok
    have h1 : alget f.permalink db.permalinks = some f.id :=
      (hinv f.permalink f.id).mpr ⟨old, hfid, hperm⟩
    by_cases hp : p = f.permalink <;> by_cases hi : i = f.id
    · rw [if_pos hp, if_pos hi]
      exact ⟨fun _ => ⟨f, rfl, hp.symm⟩, fun _ => congrArg some hi.symm⟩
    · rw [if_pos hp, if_neg hi]
      constructor
      · intro hL
        exact absurd (Option.some.inj hL).symm hi
      · rintro ⟨r, hr, hrp⟩
        have hhit := (hinv f.permalink i).mpr ⟨r, hr, by rw [hrp]; exact hp⟩
        rw [h1] at hhit
        exact congrArg some (Option.some.inj hhit)
    · rw [if_neg hp, if_pos hi]
      constructor
      · intro hL
        obtain ⟨r, hr, hrp⟩ := (hinv p i).mp hL
        rw [hi, hfid] at hr
        obtain rfl := Option.some.inj hr
        exact absurd (hrp.symm.trans hperm) hp
      · rintro ⟨r, hr, hrp⟩
        obtain rfl := Option.some.inj hr
        exact absurd hrp.symm hp
    · rw [if_neg hp, if_neg hi]
      exact hinv p i
  | none =>
    have hnone : alget f.permalink db.permalinks = none := by
      simp only [permaOk, hfid, Option.isNone_iff_eq_none] at hok
      exact hok
    by_cases hp : p = f.permalink <;> by_cases hi : i = f.id
    · rw [if_pos hp, if_pos hi]
      exact ⟨fun _ => ⟨f, rfl, hp.symm⟩, fun _ => congrArg some hi.symm⟩
    · rw [if_pos hp, if_neg hi]
      constructor
      · intro hL
        exact absurd (Option.some.inj hL).symm hi
      · rintro ⟨r, hr, hrp⟩
        have hhit := (hinv f.permalink i).mpr ⟨r, hr, by rw [hrp]; exact hp⟩
        rw [hnone] at hhit
        exact Option.noConfusion hhit
    · rw [if_neg hp, if_pos hi]
      constructor
      · intro hL
        obtain ⟨r, hr, hrp⟩ := (hinv p i).mp hL
        rw [hi, hfid] at hr
        exact Option.noConfusion hr
      · rintro ⟨r, hr, hrp⟩
        obtain rfl := Option.some.inj hr
        exact absurd hrp.symm hp
    · rw [if_neg hp, if_neg hi]
      exact hinv p i

/-- `delete_file` always preserves the permalink invariant. -/
theorem permalinkInv_del (db : DB) (id : String) (hinv : permalinkInv db) :
    permalinkInv (delete_file db id).1 := by
  cases hfid : alget id db.files with
  | none =>
    simp only [delete_file, hfid]
    exact hinv
  | some file =>
    have h1 : alget file.permalink db.permalinks = some id :=
      (hinv file.permalink id).mpr ⟨file, hfid, rfl⟩
    intro p i
    simp only [delete_file, hfid, alget_remove]
    by_cases hp : p = file.permalink <;> by_cases hi : i = id
    · rw [if_pos hp, if_pos hi]
      exact ⟨fun hL => Option.noConfusion hL,
        fun ⟨r, hr, _⟩ => Option.noConfusion hr⟩
    · rw [if_pos hp, if_neg hi]
      constructor
      · intro hL
        exact Option.noConfusion hL
      · rintro ⟨r, hr, hrp⟩
        have hhit := (hinv file.permalink i).mpr ⟨r, hr, by rw [hrp]; exact hp⟩
        rw [h1] at hhit
        exact absurd (Option.some.inj hhit).symm hi
    · rw [if_neg hp, if_pos hi]
      constructor
      · intro hL
        obtain ⟨r, hr, hrp⟩ := (hinv p i).mp hL
        rw [hi, hfid] at hr
        obtain rfl := Option.some.inj hr
        exact absurd hrp.symm hp
      · rintro ⟨r, hr, hrp⟩
        exact Option.noConfusion hr
    · rw [if_neg hp, if_neg hi]
      exact hinv p i

/-- `update_file` preserves the permalink invariant when any supplied
permalink is collision-free. -/
theorem permalinkInv_upd (db : DB) (id : String)
    (alt description : Option (Option String))
    (metadata : Option (Option Metadata)) (name : Option (Option String))
    (permalink : Option String) (subject_id : Option (Option String))
    (now : Timestamp) (hinv : permalinkInv db)
    (hok : permaOk db (Op.upd id alt description metadata name permalink
      subject_id now) = true) :
    permalinkInv (update_file db id alt description metadata name permalink
      subject_id now).1 := by
  cases hfid : alget id db.files with
  | none =>
    simp only [update_file, hfid]
    exact hinv
  | some r =>
    rcases permalink with _ | newp
    · have hfiles : (update_file db id alt description metadata name none
          subject_id now).1.files =
          alinsert id (updatedRecord r alt description metadata name none
            subject_id now) db.files :=
        update_file_files db id r hfid alt description metadata name none
          subject_id now
      have hperms : (update_file db id alt description metadata name none
          subject_id now).1.permalinks = db.permalinks :=
        update_file_permalinks db id r hfid alt description metadata name none
          subject_id now
      intro p i
      rw [hfiles, hperms, alget_insert]
      by_cases hi : i = id
      · rw [if_pos hi]
        constructor
        · intro hL
          obtain ⟨rr, hr, hrp⟩ := (hinv p i).mp hL
          rw [hi, hfid] at hr
          obtain rfl := Option.some.inj hr
          exact ⟨_, rfl, hrp⟩
        · rintro ⟨rr, hr, hrp⟩
          obtain rfl := Option.some.inj hr
          exact (hinv p i).mpr ⟨r, by rw [hi]; exact hfid, hrp⟩
      · rw [if_neg hi]
        exact hinv p i
    · have hfiles : (update_file db id alt description metadata name
          (some newp) subject_id now).1.files =
          alinsert id (updatedRecord r alt description metadata name
            (some newp) subject_id now) db.files :=
        update_file_files db id r hfid alt description metadata name
          (some newp) subject_id now
      have hperms : (update_file db id alt description metadata name
          (some newp) subject_id now).1.permalinks =
          alinsert newp id (alremove r.permalink db.permalinks) :=
        update_file_permalinks db id r hfid alt description metadata name
          (some newp) subject_id now
      have hnewp : alget newp db.permalinks = none ∨
          alget newp db.permalinks = some id := by
        simp only [permaOk, hfid] at hok
        cases hn : alget newp db.permalinks with
        | none => exact Or.inl rfl
        | some j =>
          rw [hn, decide_eq_true_eq] at hok
          exact Or.inr (congrArg some hok)
      have h1 : alget r.permalink db.permalinks = some id :=
        (hinv r.permalink id).mpr ⟨r, hfid, rfl⟩
      intro p i
      rw [hfiles, hperms, alget_insert, alget_remove, alget_insert]
      by_cases hp1 : p = newp
      · rw [if_pos hp1]
        by_cases hi : i = id
        · rw [if_pos hi]
          exact ⟨fun _ => ⟨_, rfl, hp1.symm⟩, fun _ => congrArg some hi.symm⟩
        · rw [if_neg hi]
          constructor
          · intro hL
            exact absurd (Option.some.inj hL).symm hi
          · rintro ⟨rr, hr, hrp⟩
            have hhit := (hinv newp i).mpr ⟨rr, hr, by rw [hrp]; exact hp1⟩
            cases hnewp with
            | inl hn =>
              rw [hn] at hhit
              exact Option.noConfusion hhit
            | inr hn =>
              rw [hn] at hhit
              exact congrArg some (Option.some.inj hhit)
      · rw [if_neg hp1]
        by_cases hp2 : p = r.permalink
        · rw [if_pos hp2]
          by_cases hi : i = id
          · rw [if_pos hi]
            constructor
            · intro hL
              exact Option.noConfusion hL
            · rintro ⟨rr, hr, hrp⟩
              obtain rfl := Option.some.inj hr
              exact absurd hrp.symm hp1
          · rw [if_neg hi]
            constructor
            · intro hL
              exact Option.noConfusion hL
            · rintro ⟨rr, hr, hrp⟩
              have hhit := (hinv r.permalink i).mpr
                ⟨rr, hr, by rw [hrp]; exact hp2⟩
              rw [h1] at hhit
              exact absurd (Option.some.inj hhit).symm hi
        · rw [if_neg hp2]
          by_cases hi : i = id
          · rw [if_pos hi]
            constructor
            · intro hL
              obtain ⟨rr, hr, hrp⟩ := (hinv p i).mp hL
              rw [hi, hfid] at hr
              obtain rfl := Option.some.inj hr
              exact absurd hrp.symm hp2
            · rintro ⟨rr, hr, hrp⟩
              obtain rfl := Option.some.inj hr
              exact absurd hrp.symm hp1
          · rw [if_neg hi]
            exact hinv p i

theorem permalinkInv_empty : permalinkInv emptyDB := by
  intro p i
  constructor
  · intro h
    exact Option.noConfusion h
  · rintro ⟨r, hr, -⟩
    exact Option.noConfusion hr

theorem subjectInvFull_empty : subjectInvFull emptyDB := by
  constructor
  · intro s ids hids
    exact Option.noConfusion hids
  · rintro i s ⟨r, hr, -⟩
    exact Option.noConfusion hr

theorem permalinkInv_step (db : DB) (op : Op) (hinv : permalinkInv db)
    (hok : permaOk db op = true) : permalinkInv (step db op) := by
  cases op with
  | put f => exact permalinkInv_put db f hinv hok
  | del i => exact permalinkInv_del db i hinv
  | upd i a d m n p s now => exact permalinkInv_upd db i a d m n p s now hinv hok

theorem subjectInvFull_step (db : DB) (op : Op) (hinv : subjectInvFull db)
    (hok : subjOk db op = true) : subjectInvFull (step db op) := by
  cases op with
  | put f => exact subjectInvFull_put db f hinv hok
  | del i => exact subjectInvFull_del db i hinv
  | upd i a d m n p s now => exact subjectInvFull_upd db i a d m n p s now hinv

/-- Every repository operation keeps the primary table well-formed. -/
theorem storeWF_step (db : DB) (op : Op) (h : storeWF db) :
    storeWF (step db op) := by
  obtain ⟨hsort, hcoh⟩ := h
  cases op with
  | put f =>
    constructor
    · rw [show (step db (Op.put f)).files = alinsert f.id f db.files from rfl]
      exact alinsert_pairwise _ _ _ hsort
    · rw [show (step db (Op.put f)).files = alinsert f.id f db.files from rfl]
      intro e he
      rcases alinsert_mem he with rfl | he'
      · rfl
      · exact hcoh e he'
  | del id =>
    cases hfid : alget id db.files with
    | none =>
      have hstep : step db (Op.del id) = db := by
        simp only [step, delete_file, hfid]
      rw [hstep]
      exact ⟨hsort, hcoh⟩
    | some file =>
      have hf : (step db (Op.del id)).files = alremove id db.files := by
        simp only [step, delete_file, hfid]
      constructor
      · rw [hf]
        exact List.Pairwise.sublist (List.filter_sublist _) hsort
      · rw [hf]
        intro e he
        exact hcoh e (List.mem_of_mem_filter he)
  | upd id alt d m n p s now =>
    cases hfid : alget id db.files with
    | none =>
      have hstep : step db (Op.upd id alt d m n p s now) = db := by
        simp only [step, update_file, hfid]
      rw [hstep]
      exact ⟨hsort, hcoh⟩
    | some r =>
      have hf : (step db (Op.upd id alt d m n p s now)).files =
          alinsert id (updatedRecord r alt d m n p s now) db.files :=
        update_file_files db id r hfid alt d m n p s now
      have hrid : r.id = id := hcoh (id, r) (alget_mem hfid)
      constructor
      · rw [hf]
        exact alinsert_pairwise _ _ _ hsort
      · rw [hf]
        intro e he
        rcases alinsert_mem he with rfl | he'
        · exact hrid
        · exact hcoh e he'

theorem foldl_storeWF (ops : List Op) (db : DB) (h : storeWF db) :
    storeWF (ops.foldl step db) := by
  induction ops generalizing db with
  | nil => exact h
  | cons op rest ih => exact ih (step db op) (storeWF_step db op h)

theorem storeWF_run (ops : List Op) : storeWF (run ops) :=
  foldl_storeWF ops emptyDB
    ⟨List.Pairwise.nil, fun e he => absurd he (List.not_mem_nil e)⟩

/-- A state predicate preserved by every `ok`-approved step holds after any
`ok`-approved run. -/
theorem stepsOk_foldl_inv (P : DB → Prop) (ok : DB → Op → Bool)
    (hstep : ∀ db op, P db → ok db op = true → P (step db op))
    (ops : List Op) (db : DB) (hP : P db) (h : stepsOk ok db ops = true) :
    P (ops.foldl step db) := by
  induction ops generalizing db with
  | nil => exact hP
  | cons op rest ih =>
    rw [stepsOk, Bool.and_eq_true] at h
    exact ih (step db op) (hstep db op hP h.1) h.2

/-- A run approved by a stronger side condition is approved by a weaker one. -/
theorem stepsOk_mono (ok1 ok2 : DB → Op → Bool)
    (himp : ∀ db op, ok1 db op = true → ok2 db op = true)
    (ops : List Op) (db : DB) (h : stepsOk ok1 db ops = true) :
    stepsOk ok2 db ops = true := by
  induction ops generalizing db with
  | nil => rfl
  | cons op rest ih =>
    rw [stepsOk, Bool.and_eq_true] at h ⊢
    exact ⟨himp db op h.1, ih (step db op) h.2⟩

/-- Prefixes of an `ok`-approved run are `ok`-approved. -/
theorem stepsOk_take (ok : DB → Op → Bool) (ops : List Op) (db : DB)
    (h : stepsOk ok db ops = true) : ∀ n, stepsOk ok db (ops.take n) = true := by
  induction ops generalizing db with
  | nil =>
    intro n
    rw [List.take_nil]
    rfl
  | cons op rest ih =>
    intro n
    cases n with
    | zero => rfl
    | succ m =>
      rw [stepsOk, Bool.and_eq_true] at h
      rw [List.take_succ_cons, stepsOk, Bool.and_eq_true]
      exact ⟨h.1, ih (step db op) h.2 m⟩

/-- Re-inserting records never touches ids none of them carry. -/
theorem restore_files_eq_of_fresh (rs : List FileRecord) (d : DB) (i : String)
    (h : ∀ r ∈ rs, ¬ r.id = i) :
    alget i (rs.foldl put_file d).files = alget i d.files := by
  induction rs generalizing d with
  | nil => rfl
  | cons r rest ih =>
    rw [List.foldl_cons,
      ih (put_file d r) (fun r' hr' => h r' (List.mem_cons_of_mem _ hr')),
      put_file_files, alget_insert,
      if_neg (fun hh : i = r.id => h r (List.mem_cons_self _ _) hh.symm)]

/-- Re-inserting records with pairwise-distinct ids stores each one under
its id. -/
theorem restore_files_eq_of_mem (rs : List FileRecord) (d : DB)
    (r : FileRecord) (hmem : r ∈ rs) (hnd : (rs.map FileRecord.id).Nodup) :
    alget r.id (rs.foldl put_file d).files = some r := by
  induction rs generalizing d with
  | nil => cases hmem
  | cons r0 rest ih =>
    rw [List.map_cons, List.nodup_cons] at hnd
    rcases List.mem_cons.mp hmem with rfl | hmem'
    · rw [List.foldl_cons,
        restore_files_eq_of_fresh rest (put_file d r) r.id
          (fun r' hr' hh => hnd.1 (hh ▸ List.mem_map_of_mem FileRecord.id hr')),
        put_file_files, alget_insert, if_pos rfl]
    · rw [List.foldl_cons]
      exact ih (put_file d r0) hmem' hnd.2

/-- Re-inserting fresh, collision-free records preserves both index
invariants. -/
theorem restore_inv (rs : List FileRecord) (d : DB)
    (hperma : permalinkInv d) (hsubj : subjectInvFull d)
    (hfresh : ∀ r ∈ rs, alget r.id d.files = none)
    (hpfresh : ∀ r ∈ rs, alget r.permalink d.permalinks = none)
    (hiddist : List.Pairwise (fun r1 r2 : FileRecord => ¬ r1.id = r2.id) rs)
    (hpdist : List.Pairwise
      (fun r1 r2 : FileRecord => ¬ r1.permalink = r2.permalink) rs) :
    permalinkInv (rs.foldl put_file d) ∧
      subjectInvFull (rs.foldl put_file d) := by
  induction rs generalizing d with
  | nil => exact ⟨hperma, hsubj⟩
  | cons r rest ih =>
    rw [List.pairwise_cons] at hiddist hpdist
    have hok1 : permaOk d (Op.put r) = true := by
      simp only [permaOk, hfresh r (List.mem_cons_self _ _),
        hpfresh r (List.mem_cons_self _ _), Option.isNone_none]
    have hok2 : subjOk d (Op.put r) = true := by
      simp only [subjOk, hfresh r (List.mem_cons_self _ _)]
    rw [List.foldl_cons]
    refine ih (put_file d r) (permalinkInv_put d r hperma hok1)
      (subjectInvFull_put d r hsubj hok2) ?_ ?_ hiddist.2 hpdist.2
    · intro r' hr'
      rw [put_file_files, alget_insert,
        if_neg (fun hh : r'.id = r.id => hiddist.1 r' hr' hh.symm)]
      exact hfresh r' (List.mem_cons_of_mem _ hr')
    · intro r' hr'
      rw [put_file_permalinks, alget_insert,
        if_neg (fun hh : r'.permalink = r.permalink =>
          hpdist.1 r' hr' hh.symm)]
      exact hpfresh r' (List.mem_cons_of_mem _ hr')

/-- Two stores with equal record maps both satisfying the permalink
invariant have equal permalink tables. -/
theorem permalinkInv_unique (d1 d2 : DB)
    (hf : ∀ i, alget i d1.files = alget i d2.files)
    (h1 : permalinkInv d1) (h2 : permalinkInv d2) :
    ∀ p, alget p d1.permalinks = alget p d2.permalinks := by
  intro p
  cases hh1 : alget p d1.permalinks with
  | some i =>
    obtain ⟨r, hr, hrp⟩ := (h1 p i).mp hh1
    rw [hf i] at hr
    exact ((h2 p i).mpr ⟨r, hr, hrp⟩).symm
  | none =>
    cases hh2 : alget p d2.permalinks with
    | none => rfl
    | some i =>
      obtain ⟨r, hr, hrp⟩ := (h2 p i).mp hh2
      rw [← hf i] at hr
      have hhit := (h1 p i).mpr ⟨r, hr, hrp⟩
      rw [hh1] at hhit
      exact Option.noConfusion hhit

/-- Two stores with equal record maps both satisfying the subject invariant
have subject tables with the same keys and the same id sets. -/
theorem subjTableOk_unique (d1 d2 : DB)
    (hf : ∀ i, alget i d1.files = alget i d2.files)
    (h1 : subjectInvFull d1) (h2 : subjectInvFull d2) :
    ∀ s, (alget s d1.subjects = none ↔ alget s d2.subjects = none) ∧
      ∀ i, (∃ ids, alget s d1.subjects = some ids ∧ i ∈ ids) ↔
        ∃ ids, alget s d2.subjects = some ids ∧ i ∈ ids := by
  have hlive : ∀ i s, liveOf d1.files i s ↔ liveOf d2.files i s := by
    intro i s
    unfold liveOf
    rw [hf i]
  have hnone : ∀ (dA dB : DB), subjectInvFull dA → subjectInvFull dB →
      (∀ i s, liveOf dA.files i s ↔ liveOf dB.files i s) →
      ∀ s, alget s dA.subjects = none → alget s dB.subjects = none := by
    intro dA dB hA hB hAB s hnA
    cases hnB : alget s dB.subjects with
    | none => rfl
    | some ids =>
      obtain ⟨hne, -, hm⟩ := hB.1 s ids hnB
      obtain ⟨i, hi⟩ := List.exists_mem_of_ne_nil ids hne
      have hlB := (hm i).mp hi
      have hlA := (hAB i s).mpr hlB
      obtain ⟨ids', hh, -⟩ := hA.2 i s hlA
      rw [hnA] at hh
      exact Option.noConfusion hh
  intro s
  constructor
  · constructor
    · exact hnone d1 d2 h1 h2 hlive s
    · exact hnone d2 d1 h2 h1 (fun i s => (hlive i s).symm) s
  · intro i
    constructor
    · rintro ⟨ids, hh, hm⟩
      have hl1 := ((h1.1 s ids hh).2.2 i).mp hm
      have hl2 := (hlive i s).mp hl1
      exact h2.2 i s hl2
    · rintro ⟨ids, hh, hm⟩
      have hl2 := ((h2.1 s ids hh).2.2 i).mp hm
      have hl1 := (hlive i s).mpr hl2
      exact h1.2 i s hl1

/-- C3: the state machine's `apply` is not deterministic as a function of op
and prior state alone: `update_file` stamps `updated_at` from the applying
node's own clock (`chrono::Utc::now()`, `src/storage/files.rs` line 265), so
the same `UpdateFile` op applied to the same prior state at two different
clock readings yields two different states.  Two replicas replaying the same
op log therefore need not agree on `updated_at`. -/
theorem apply_update_depends_on_local_clock :
    FileStateMachine.apply sampleDB sampleUpdateOp 0 ≠
      FileStateMachine.apply sampleDB sampleUpdateOp 1 := by
  decide

/-- C9: `Patch::from(Option<Option<T>>)` and `Patch::as_option` are mutually
inverse, so the tri-state absent/null/value distinction survives the
conversion used on the apply path exactly. -/
theorem patch_from_as_option_round_trip {T : Type} :
    (∀ v : Option (Option T), (Patch.fromOpt v).as_option = v) ∧
      ∀ p : Patch T, Patch.fromOpt p.as_option = p := by
  constructor
  · intro v
    rcases v with _ | _ | v <;> rfl
  · intro p
    rcases p with _ | _ | v <;> rfl

/-- C10: `FileType::from_mime` is total — every string maps to one of the
five variants; an unrecognized primary type maps to `Binary`; a `text`
primary always maps to `Document`; an `application` primary maps to
`Document` exactly for the nine listed document subtypes and to `Binary`
otherwise. -/
theorem from_mime_total_classification (m : String) :
    (FileType.from_mime m = FileType.Audio ∨
      FileType.from_mime m = FileType.Binary ∨
      FileType.from_mime m = FileType.Document ∨
      FileType.from_mime m = FileType.Image ∨
      FileType.from_mime m = FileType.Video) ∧
    (mimePrimary m ∉ ["audio", "image", "video", "text", "application"] →
      FileType.from_mime m = FileType.Binary) ∧
    (mimePrimary m = "text" → FileType.from_mime m = FileType.Document) ∧
    (mimePrimary m = "application" →
      (mimeSub m ∈ docSubtypes → FileType.from_mime m = FileType.Document) ∧
      (mimeSub m ∉ docSubtypes → FileType.from_mime m = FileType.Binary)) := by
  refine ⟨?_, ?_, ?_, ?_⟩
  · cases h : FileType.from_mime m <;> simp
  · intro h
    simp only [List.mem_cons, List.not_mem_nil, or_false, not_or] at h
    obtain ⟨h1, h2, h3, h4, h5⟩ := h
    simp [FileType.from_mime, h1, h2, h3, h4, h5]
  · intro h
    have h1 : ¬ mimePrimary m = "audio" := by rw [h]; decide
    have h2 : ¬ mimePrimary m = "image" := by rw [h]; decide
    have h3 : ¬ mimePrimary m = "video" := by rw [h]; decide
    simp only [FileType.from_mime, if_neg h1, if_neg h2, if_neg h3,
      if_pos (Or.inl h)]
    split
    · rfl
    · rfl
  · intro h
    have h1 : ¬ mimePrimary m = "audio" := by rw [h]; decide
    have h2 : ¬ mimePrimary m = "image" := by rw [h]; decide
    have h3 : ¬ mimePrimary m = "video" := by rw [h]; decide
    have h4 : ¬ mimePrimary m = "text" := by rw [h]; decide
    constructor
    · intro hsub
      simp only [FileType.from_mime, if_neg h1, if_neg h2, if_neg h3,
        if_pos (Or.inr h), if_pos hsub]
    · intro hsub
      simp only [FileType.from_mime, if_neg h1, if_neg h2, if_neg h3,
        if_pos (Or.inr h), if_neg hsub, if_neg h4]

/-- C1 counterexample: after `put {id: a, permalink: p}` then
`put {id: a, permalink: q}`, the PermalinkIndex still maps `p` to `a`
although the only live record's permalink is `q` — `put_file` never removes
the overwritten record's old permalink entry. -/
theorem permalink_index_stale_after_put_overwrite :
    ¬ permalinkInv (run permaCexOps) := by
  intro h
  obtain ⟨r, hr, hp⟩ := (h "p" "a").mp (by decide)
  have h2 : alget "a" (run permaCexOps).files =
      some { sampleRecord with id := "a", permalink := "q" } := by decide
  rw [h2] at hr
  obtain rfl := Option.some.inj hr
  exact absurd hp (by decide)

/-- C1 (amended): for every operation sequence from the empty store in which
every put either overwrites a record keeping its permalink or inserts a
fresh id under an unused permalink, and every update's supplied permalink is
unused or the record's own (`permaOk`, the §4.3 caller-side pre-check),
after each operation the PermalinkIndex holds exactly one entry per live
record, mapping its current permalink to its id, and nothing else. -/
theorem permalink_index_exact_on_collision_free_runs (ops : List Op)
    (h : stepsOk permaOk emptyDB ops = true) (n : Nat) :
    permalinkInv (run (ops.take n)) :=
  stepsOk_foldl_inv permalinkInv permaOk permalinkInv_step (ops.take n)
    emptyDB permalinkInv_empty (stepsOk_take permaOk ops emptyDB h n)

/-- Witness for C1 on a concrete collision-free run, after each prefix. -/
theorem permalink_index_exact_on_collision_free_runs_witness :
    stepsOk permaOk emptyDB permaGoodOps = true ∧
      permalinkInv (run (permaGoodOps.take 2)) :=
  ⟨by decide,
   permalink_index_exact_on_collision_free_runs permaGoodOps (by decide) 2⟩

/-- C2 counterexample: after `put {id: a, subjectId: s1}` then
`put {id: a, subjectId: s2}`, the SubjectIndex still lists `a` under `s1`
although the only live record's subject is `s2` — `put_file` never removes
the overwritten record's id from its old subject's list. -/
theorem subject_index_stale_after_put_overwrite :
    ¬ subjectClaim (run subjectCexOps) := by
  intro h
  have h0 : alget "s1" (run subjectCexOps).subjects = some ["a"] := by decide
  obtain ⟨-, -, hm⟩ := h "s1" ["a"] h0
  obtain ⟨r, hr, hs⟩ := (hm "a").mp (by decide)
  have h2 : alget "a" (run subjectCexOps).files =
      some { sampleRecord with id := "a", subject_id := some "s2" } := by
    decide
  rw [h2] at hr
  obtain rfl := Option.some.inj hr
  exact absurd hs (by decide)

/-- C2 (amended): for every operation sequence from the empty store in which
no put overwrites a live record that carries a subject with a different
`subject_id` (`subjOk`; overwriting a subject-less record — including
giving it a subject — is always safe, and updates and deletes need no side
condition), after each operation every id list in the SubjectIndex is
nonempty, duplicate-free, and equal as a set to the live record ids
carrying that subject. -/
theorem subject_index_exact_on_overwrite_free_runs (ops : List Op)
    (h : stepsOk subjOk emptyDB ops = true) (n : Nat) :
    subjectClaim (run (ops.take n)) := by
  have hfull : subjectInvFull (run (ops.take n)) :=
    stepsOk_foldl_inv subjectInvFull subjOk subjectInvFull_step (ops.take n)
      emptyDB subjectInvFull_empty (stepsOk_take subjOk ops emptyDB h n)
  intro s ids hids
  exact hfull.1 s ids hids

/-- Witness for C2 on a concrete allowed run, at the prefix right after the
subject-less record was overwritten with its first subject. -/
theorem subject_index_exact_on_overwrite_free_runs_witness :
    stepsOk subjOk emptyDB subjectGoodOps = true ∧
      subjectClaim (run (subjectGoodOps.take 2)) :=
  ⟨by decide,
   subject_index_exact_on_overwrite_free_runs subjectGoodOps (by decide) 2⟩

/-- C5 counterexample: after the run above, the original PermalinkIndex
still holds the stale entry `pa -> a`, which restore does not reproduce
(and the subject list order `[b, a]` comes back as `[a, b]`). -/
theorem snapshot_restore_not_identity :
    ¬ restoreReproduces (run roundTripCexOps) := by
  rintro ⟨-, hperm, -⟩
  have hz : alget "pa" (FileStateMachine.restore emptyDB
      (FileStateMachine.snapshot (run roundTripCexOps))).permalinks =
      alget "pa" (run roundTripCexOps).permalinks := by
    rw [hperm]
  revert hz
  decide

/-- C5 (amended): for collision-free runs (`goodOp`: puts never overwrite a
record with a changed permalink, never change or drop the subject of an
overwritten record that has one — first-time subjects are fine — and
updates never take another record's permalink), snapshot-then-restore into
a freshly empty store
reproduces the record map exactly, the PermalinkIndex exactly, and the
SubjectIndex up to per-key id-set equality — the stored id lists may come
back reordered, because restore re-inserts records in id order while the
original lists reflect insertion order. -/
theorem snapshot_restore_round_trip (ops : List Op)
    (h : stepsOk goodOp emptyDB ops = true) :
    (∀ i, alget i (FileStateMachine.restore emptyDB
        (FileStateMachine.snapshot (run ops))).files =
      alget i (run ops).files) ∧
    (∀ p, alget p (FileStateMachine.restore emptyDB
        (FileStateMachine.snapshot (run ops))).permalinks =
      alget p (run ops).permalinks) ∧
    ∀ s, (alget s (FileStateMachine.restore emptyDB
          (FileStateMachine.snapshot (run ops))).subjects = none ↔
        alget s (run ops).subjects = none) ∧
      ∀ i, (∃ ids, alget s (FileStateMachine.restore emptyDB
            (FileStateMachine.snapshot (run ops))).subjects = some ids ∧
          i ∈ ids) ↔
        ∃ ids, alget s (run ops).subjects = some ids ∧ i ∈ ids := by
  simp only [FileStateMachine.restore]
  have hperma : permalinkInv (run ops) :=
    stepsOk_foldl_inv permalinkInv permaOk permalinkInv_step ops emptyDB
      permalinkInv_empty (stepsOk_mono goodOp permaOk
        (fun db op hh => by
          rw [goodOp, Bool.and_eq_true] at hh
          exact hh.1) ops emptyDB h)
  have hsubj : subjectInvFull (run ops) :=
    stepsOk_foldl_inv subjectInvFull subjOk subjectInvFull_step ops emptyDB
      subjectInvFull_empty (stepsOk_mono goodOp subjOk
        (fun db op hh => by
          rw [goodOp, Bool.and_eq_true] at hh
          exact hh.2) ops emptyDB h)
  obtain ⟨hsort, hcoh⟩ := storeWF_run ops
  have hnd : ((run ops).files.map Prod.fst).Nodup := pairwise_keys_nodup _ hsort
  have hkeys : (FileStateMachine.snapshot (run ops)).map FileRecord.id =
      (run ops).files.map Prod.fst := by
    show ((run ops).files.map (fun kv => kv.2)).map FileRecord.id = _
    rw [List.map_map]
    exact List.map_congr_left (fun e he => hcoh e he)
  have hids : ((FileStateMachine.snapshot (run ops)).map FileRecord.id).Nodup := by
    rw [hkeys]
    exact hnd
  have hmem_get : ∀ r : FileRecord, r ∈ FileStateMachine.snapshot (run ops) →
      alget r.id (run ops).files = some r := by
    intro r hr
    obtain ⟨e, he, hre⟩ := List.mem_map.mp hr
    have hid : e.2.id = e.1 := hcoh e he
    have hg : alget e.1 (run ops).files = some e.2 := alget_of_mem hnd he
    rw [hre] at hg hid
    rw [hid]
    exact hg
  have hget_mem : ∀ (i : String) (r : FileRecord),
      alget i (run ops).files = some r →
      r ∈ FileStateMachine.snapshot (run ops) := by
    intro i r hg
    exact List.mem_map_of_mem (fun kv => kv.2) (alget_mem hg)
  have hiddist : List.Pairwise (fun r1 r2 : FileRecord => ¬ r1.id = r2.id)
      (FileStateMachine.snapshot (run ops)) := by
    show List.Pairwise _ ((run ops).files.map (fun kv => kv.2))
    rw [List.pairwise_map]
    refine hsort.imp_of_mem ?_
    intro e1 e2 he1 he2 hlt heq
    rw [hcoh e1 he1, hcoh e2 he2] at heq
    exact strLt_irrefl e2.1 (heq ▸ hlt)
  have hpdist : List.Pairwise
      (fun r1 r2 : FileRecord => ¬ r1.permalink = r2.permalink)
      (FileStateMachine.snapshot (run ops)) := by
    show List.Pairwise _ ((run ops).files.map (fun kv => kv.2))
    rw [List.pairwise_map]
    refine hsort.imp_of_mem ?_
    intro e1 e2 he1 he2 hlt heq
    have hg1 : alget e1.1 (run ops).files = some e1.2 := alget_of_mem hnd he1
    have hg2 : alget e2.1 (run ops).files = some e2.2 := alget_of_mem hnd he2
    have hp1 := (hperma e1.2.permalink e1.1).mpr ⟨e1.2, hg1, rfl⟩
    have hp2 := (hperma e1.2.permalink e2.1).mpr ⟨e2.2, hg2, heq.symm⟩
    rw [hp1] at hp2
    exact strLt_irrefl e2.1 ((Option.some.inj hp2) ▸ hlt)
  obtain ⟨hperma', hsubj'⟩ := restore_inv (FileStateMachine.snapshot (run ops))
    emptyDB permalinkInv_empty subjectInvFull_empty
    (fun r _ => rfl) (fun r _ => rfl) hiddist hpdist
  have hfileseq : ∀ i, alget i ((FileStateMachine.snapshot
      (run ops)).foldl put_file emptyDB).files = alget i (run ops).files := by
    intro i
    cases hgi : alget i (run ops).files with
    | some r =>
      have hid : r.id = i := hcoh (i, r) (alget_mem hgi)
      have hres := restore_files_eq_of_mem (FileStateMachine.snapshot
        (run ops)) emptyDB r (hget_mem i r hgi) hids
      rw [hid] at hres
      exact hres
    | none =>
      have hfr : ∀ r ∈ FileStateMachine.snapshot (run ops), ¬ r.id = i := by
        intro r hr hh
        have hg := hmem_get r hr
        rw [hh, hgi] at hg
        exact Option.noConfusion hg
      rw [restore_files_eq_of_fresh _ emptyDB i hfr]
      rfl
  refine ⟨hfileseq, ?_, ?_⟩
  · exact permalinkInv_unique _ _ hfileseq hperma' hperma
  · exact subjTableOk_unique _ _ hfileseq hsubj' hsubj

/-- Witness for C5 on a concrete collision-free run. -/
theorem snapshot_restore_round_trip_witness :
    stepsOk goodOp emptyDB roundTripGoodOps = true ∧
      ∀ i, alget i (FileStateMachine.restore emptyDB
          (FileStateMachine.snapshot (run roundTripGoodOps))).files =
        alget i (run roundTripGoodOps).files :=
  ⟨by decide, (snapshot_restore_round_trip roundTripGoodOps (by decide)).1⟩

/-- C6: deleting an id that is not in the primary table returns `false` and
is a complete no-op; after a successful delete, `get` of the id misses and a
second delete of the same id returns `false` leaving the state unchanged. -/
theorem delete_missing_noop_get_none (db : DB) (id : String) :
    (get_file db id = none → delete_file db id = (db, false)) ∧
    ∀ db', delete_file db id = (db', true) →
      get_file db' id = none ∧ delete_file db' id = (db', false) := by
  constructor
  · intro h
    rw [get_file] at h
    simp only [delete_file, h]
  · intro db' h
    cases heq : alget id db.files with
    | none =>
      simp only [delete_file, heq, Prod.mk.injEq, Bool.false_eq_true,
        and_false] at h
    | some file =>
      simp only [delete_file, heq, Prod.mk.injEq, and_true] at h
      have hget : get_file db' id = none := by
        rw [← h, get_file]
        simp [alget_remove]
      refine ⟨hget, ?_⟩
      rw [get_file] at hget
      simp only [delete_file, hget]

/-- Witness for C6: deleting the only record of `sampleDB` makes its id
unresolvable, and deleting a missing id is a no-op returning `false`. -/
theorem delete_missing_noop_get_none_witness :
    get_file (delete_file sampleDB "f1").1 "f1" = none ∧
    delete_file sampleDB "nope" = (sampleDB, false) :=
  ⟨((delete_missing_noop_get_none sampleDB "f1").2 (delete_file sampleDB "f1").1
      (by decide)).1,
   (delete_missing_noop_get_none sampleDB "nope").1 (by decide)⟩

/-- C7: `update_file` returns `false` and changes nothing when the id is
absent; every successful update — the all-`Absent`, permalink-omitted one
included — returns `true`, stamps `updated_at` with the clock reading, and
writes the mutated record back. -/
theorem update_missing_false_sets_updated_at (db : DB) (id : String)
    (alt description : Option (Option String))
    (metadata : Option (Option Metadata)) (name : Option (Option String))
    (permalink : Option String) (subject_id : Option (Option String))
    (now : Timestamp) :
    (get_file db id = none →
      update_file db id alt description metadata name permalink subject_id
        now = (db, false)) ∧
    ∀ r, get_file db id = some r →
      (update_file db id alt description metadata name permalink subject_id
        now).2 = true ∧
      ∃ r', get_file (update_file db id alt description metadata name
          permalink subject_id now).1 id = some r' ∧ r'.updated_at = now := by
  constructor
  · intro h
    rw [get_file] at h
    simp only [update_file, h]
  · intro r h
    rw [get_file] at h
    refine ⟨by simp only [update_file, h], ?_⟩
    rw [get_file]
    simp only [update_file, h]
    rw [alget_insert, if_pos rfl]
    exact ⟨_, rfl, rfl⟩

/-- Witness for C7: an all-`Absent` update of the sample record succeeds and
re-stamps `updated_at`; updating a missing id returns `false` unchanged. -/
theorem update_missing_false_sets_updated_at_witness :
    ((update_file sampleDB "f1" none none none none none none 9).2 = true ∧
      ∃ r', get_file (update_file sampleDB "f1" none none none none none none
        9).1 "f1" = some r' ∧ r'.updated_at = 9) ∧
    update_file sampleDB "zz" none none none none none none 9 =
      (sampleDB, false) :=
  ⟨(update_missing_false_sets_updated_at sampleDB "f1" none none none none
      none none 9).2 sampleRecord (by decide),
   (update_missing_false_sets_updated_at sampleDB "zz" none none none none
      none none 9).1 (by decide)⟩

/-- C8: `update_file` never changes the stored record's `id`, `mime_type`,
`file_type`, `byte_size` or `created_at`. -/
theorem update_preserves_immutable_fields (db : DB) (id : String)
    (r : FileRecord) (h : get_file db id = some r)
    (alt description : Option (Option String))
    (metadata : Option (Option Metadata)) (name : Option (Option String))
    (permalink : Option String) (subject_id : Option (Option String))
    (now : Timestamp) :
    ∃ r', get_file (update_file db id alt description metadata name permalink
        subject_id now).1 id = some r' ∧
      r'.id = r.id ∧ r'.mime_type = r.mime_type ∧
      r'.file_type = r.file_type ∧ r'.byte_size = r.byte_size ∧
      r'.created_at = r.created_at := by
  rw [get_file] at h
  rw [get_file]
  simp only [update_file, h]
  rw [alget_insert, if_pos rfl]
  rcases alt with _ | a <;> rcases description with _ | d <;>
    rcases metadata with _ | mm <;> rcases name with _ | n <;>
    rcases permalink with _ | p <;> rcases subject_id with _ | s <;>
    exact ⟨_, rfl, rfl, rfl, rfl, rfl, rfl⟩

/-- Witness for C8 on the sample store with every field patched. -/
theorem update_preserves_immutable_fields_witness :
    ∃ r', get_file (update_file sampleDB "f1" (some (some "x")) (some none)
        (some (some [("k", "v")])) (some (some "n")) (some "new.png")
        (some (some "s2")) 3).1 "f1" = some r' ∧
      r'.id = sampleRecord.id ∧ r'.mime_type = sampleRecord.mime_type ∧
      r'.file_type = sampleRecord.file_type ∧
      r'.byte_size = sampleRecord.byte_size ∧
      r'.created_at = sampleRecord.created_at :=
  update_preserves_immutable_fields sampleDB "f1" sampleRecord (by decide)
    (some (some "x")) (some none) (some (some [("k", "v")])) (some (some "n"))
    (some "new.png") (some (some "s2")) 3

/-- C4: the tri-state patch semantics of `update_file`, independently per
optional field: `Absent` leaves the stored value, `Null` clears it,
`Value v` sets it to `v`. -/
theorem update_applies_patches_per_field (db : DB) (id : String)
    (r : FileRecord) (h : get_file db id = some r)
    (alt description : Patch String) (metadata : Patch Metadata)
    (name : Patch String) (permalink : Option String)
    (subject_id : Patch String) (now : Timestamp) :
    ∃ r', get_file (update_file db id alt.as_option description.as_option
        metadata.as_option name.as_option permalink subject_id.as_option
        now).1 id = some r' ∧
      r'.alt = applyPatch alt r.alt ∧
      r'.description = applyPatch description r.description ∧
      r'.metadata = applyPatch metadata r.metadata ∧
      r'.name = applyPatch name r.name ∧
      r'.subject_id = applyPatch subject_id r.subject_id := by
  rw [get_file] at h
  rw [get_file, update_file_files db id r h]
  rw [alget_insert, if_pos rfl]
  refine ⟨_, rfl, ?_, ?_, ?_, ?_, ?_⟩
  · rcases alt with _ | _ | a <;> rfl
  · rcases description with _ | _ | d <;> rfl
  · rcases metadata with _ | _ | mm <;> rfl
  · rcases name with _ | _ | n <;> rfl
  · rcases subject_id with _ | _ | s <;> rfl

/-- Witness for C4: a mixed patch combination on the sample store. -/
theorem update_applies_patches_per_field_witness :
    ∃ r', get_file (update_file sampleDB "f1" (Patch.Value "x").as_option
        Patch.Null.as_option (Patch.Absent : Patch Metadata).as_option
        (Patch.Value "nm").as_option none (Patch.Value "s9").as_option 7).1
        "f1" = some r' ∧
      r'.alt = applyPatch (Patch.Value "x") sampleRecord.alt ∧
      r'.description = applyPatch Patch.Null sampleRecord.description ∧
      r'.metadata = applyPatch Patch.Absent sampleRecord.metadata ∧
      r'.name = applyPatch (Patch.Value "nm") sampleRecord.name ∧
      r'.subject_id = applyPatch (Patch.Value "s9") sampleRecord.subject_id :=
  update_applies_patches_per_field sampleDB "f1" sampleRecord (by decide)
    (Patch.Value "x") Patch.Null Patch.Absent (Patch.Value "nm") none
    (Patch.Value "s9") 7

/-- Witness for C10 at concrete MIME strings: an unknown primary type, a
`text` subtype, a listed `application` document subtype, and an unlisted
`application` subtype. -/
theorem from_mime_total_classification_witness :
    FileType.from_mime "model/gltf" = FileType.Binary ∧
    FileType.from_mime "text/html" = FileType.Document ∧
    FileType.from_mime "application/pdf" = FileType.Document ∧
    FileType.from_mime "application/zip" = FileType.Binary :=
  ⟨(from_mime_total_classification "model/gltf").2.1 (by decide),
   (from_mime_total_classification "text/html").2.2.1 (by decide),
   ((from_mime_total_classification "application/pdf").2.2.2 (by decide)).1
     (by decide),
   ((from_mime_total_classification "application/zip").2.2.2 (by decide)).2
     (by decide)⟩
